import Mathlib

/-!
Verification of the viracochan versioned-configuration core.

The Go source is shallowly embedded: pure functions become Lean functions,
stateful operations become explicit state passing, machine integers become
Nat (with explicit reduction modulo 2^32 where the Go code computes on
uint32), and fallible operations return Except.  Timestamps are modelled
as microseconds since the Unix epoch (an Int); the source truncates every
time it stores or hashes to the microsecond, so this carries no loss for
the values the library manipulates.  Raw JSON payloads (Go
json.RawMessage) are modelled by their parsed value of type Json; the
source re-parses every raw payload before canonicalization, so a Config
whose content field is a Json value corresponds exactly to a Go Config
whose content parses as JSON.
-/

namespace Viracochan

/-- JSON values as produced by Go json.Unmarshal into an interface value.
Numbers are modelled as integers (the library treats content as opaque;
the configurations exercised by the repository carry integer numerics);
object keys are strings, matching Go map keys after normalizeValue. -/
inductive Json where
  | null : Json
  | bool (b : Bool) : Json
  | num (n : Int) : Json
  | str (s : String) : Json
  | arr (xs : List Json) : Json
  | obj (fields : List (String × Json)) : Json

/-- Hexadecimal digit character, lower case, as Go encoding/hex uses. -/
def hexDigitChar (n : Nat) : Char :=
  if n < 10 then Char.ofNat (48 + n) else Char.ofNat (87 + n)

/-- Two lower-case hex digits of a byte. -/
def hexByte2 (n : Nat) : String :=
  String.mk [hexDigitChar (n / 16 % 16), hexDigitChar (n % 16)]

/-- One character escaped the way Go encoding/json writes string values
(HTML escaping enabled, the json.Marshal default used by the source). -/
def jsonEscapeChar (c : Char) : String :=
  if c = '"' then "\\\""
  else if c = '\\' then "\\\\"
  else if c = '\n' then "\\n"
  else if c = '\r' then "\\r"
  else if c = '\t' then "\\t"
  else if c = '<' then "\\u003c"
  else if c = '>' then "\\u003e"
  else if c = '&' then "\\u0026"
  else if c.toNat < 32 then "\\u00" ++ hexByte2 c.toNat
  else if c.toNat = 0x2028 then "\\u2028"
  else if c.toNat = 0x2029 then "\\u2029"
  else String.singleton c

/-- A JSON string literal as Go json.Marshal writes it. -/
def jsonQuote (s : String) : String :=
  "\"" ++ String.join (s.data.map jsonEscapeChar) ++ "\""

/-- Comma-separated concatenation. -/
def joinComma : List String → String
  | [] => ""
  | [s] => s
  | s :: rest => s ++ "," ++ joinComma rest

/-- Insert one already-encoded object field into a list sorted by key
(ascending, the order sort.Strings and json.Marshal map output use). -/
def insertField (p : String × String) : List (String × String) → List (String × String)
  | [] => [p]
  | q :: rest => if q.1 < p.1 then q :: insertField p rest else p :: q :: rest

/-- Sort encoded object fields by key ascending. -/
def sortFields (l : List (String × String)) : List (String × String) :=
  l.foldr insertField []

/-- Keep the last occurrence of every key, as Go maps do on repeated
assignment (object literals produced by the library never repeat keys). -/
def dedupKeys : List (String × String) → List (String × String)
  | [] => []
  | p :: rest => if rest.any (fun q => q.1 = p.1) then dedupKeys rest else p :: dedupKeys rest

/-- Size bound used for the canonical serializer's termination. -/
lemma sizeOf_lt_arr {xs : List Json} {x : Json} (h : x ∈ xs) : sizeOf x < sizeOf (Json.arr xs) := by
  have := List.sizeOf_lt_of_mem h
  simp only [Json.arr.sizeOf_spec]
  omega

/-- Size bound used for the canonical serializer's termination. -/
lemma sizeOf_lt_obj {fs : List (String × Json)} {p : String × Json} (h : p ∈ fs) :
    sizeOf p.2 < sizeOf (Json.obj fs) := by
  have h1 := List.sizeOf_lt_of_mem h
  have h2 : sizeOf p.2 < sizeOf p := by
    obtain ⟨a, b⟩ := p
    simp
  simp only [Json.obj.sizeOf_spec]
  omega

/-- Serialization of a normalized value exactly as Go json.Marshal emits
it: no whitespace, object keys sorted bytewise ascending.  This is the
byte form canonicalJSON produces for hashing. -/
def Json.canon : Json → String
  | .null => "null"
  | .bool true => "true"
  | .bool false => "false"
  | .num n => toString n
  | .str s => jsonQuote s
  | .arr xs => "[" ++ joinComma (xs.attach.map (fun x => Json.canon x.1)) ++ "]"
  | .obj fs =>
      let encoded := fs.attach.map (fun f => (f.1.1, Json.canon f.1.2))
      "\x7b" ++
        joinComma ((sortFields (dedupKeys encoded)).map (fun f => jsonQuote f.1 ++ ":" ++ f.2)) ++
        "\x7d"
termination_by j => sizeOf j
decreasing_by
  all_goals
    first
    | exact sizeOf_lt_arr x.2
    | exact sizeOf_lt_obj f.2

/-- Civil date (year, month, day) from days since 1970-01-01, the
standard algorithm Go's time package implements. -/
def civilFromDays (z0 : Int) : Int × Nat × Nat :=
  let z := z0 + 719468
  let era : Int := z.fdiv 146097
  let doe : Nat := (z - era * 146097).toNat
  let yoe : Nat := (doe - doe / 1460 + doe / 36524 - doe / 146096) / 365
  let doy : Nat := doe - (365 * yoe + yoe / 4 - yoe / 100)
  let mp : Nat := (5 * doy + 2) / 153
  let d : Nat := doy - (153 * mp + 2) / 5 + 1
  let m : Nat := if mp < 10 then mp + 3 else mp - 9
  let y : Int := era * 400 + yoe + (if m ≤ 2 then 1 else 0)
  (y, m, d)

/-- Decimal digits left-padded with zeros to the given width. -/
def natPad (width n : Nat) : String :=
  let s := toString n
  String.mk (List.replicate (width - s.length) '0') ++ s

/-- Trailing zero characters removed (Go trims the fractional second). -/
def trimZeros (s : String) : String :=
  String.mk ((s.data.reverse.dropWhile (fun c => c = '0')).reverse)

/-- Go Format(time.RFC3339Nano) of a UTC instant given in microseconds
since the Unix epoch.  The source always stores microsecond-truncated UTC
times, so the fractional part has at most six digits, trailing zeros
trimmed, and the zone renders as Z. -/
def rfc3339Nano (t : Int) : String :=
  let sec : Int := t.fdiv 1000000
  let micro : Nat := (t - sec * 1000000).toNat
  let day : Int := sec.fdiv 86400
  let sod : Nat := (sec - day * 86400).toNat
  let c := civilFromDays day
  let frac := if micro = 0 then "" else "." ++ trimZeros (natPad 6 micro)
  natPad 4 c.1.toNat ++ "-" ++ natPad 2 c.2.1 ++ "-" ++ natPad 2 c.2.2 ++ "T" ++
    natPad 2 (sod / 3600) ++ ":" ++ natPad 2 (sod % 3600 / 60) ++ ":" ++
    natPad 2 (sod % 60) ++ frac ++ "Z"

/-- UTF-8 encoding of one character (Go byte conversion of a string). -/
def charUtf8 (c : Char) : List Nat :=
  let n := c.toNat
  if n < 0x80 then [n]
  else if n < 0x800 then [0xc0 ||| (n >>> 6), 0x80 ||| (n &&& 0x3f)]
  else if n < 0x10000 then
    [0xe0 ||| (n >>> 12), 0x80 ||| ((n >>> 6) &&& 0x3f), 0x80 ||| (n &&& 0x3f)]
  else
    [0xf0 ||| (n >>> 18), 0x80 ||| ((n >>> 12) &&& 0x3f),
     0x80 ||| ((n >>> 6) &&& 0x3f), 0x80 ||| (n &&& 0x3f)]

/-- UTF-8 bytes of a string. -/
def utf8Bytes (s : String) : List Nat :=
  (s.data.map charUtf8).flatten

/-- Reduction modulo 2^32, making uint32 arithmetic explicit. -/
def w32 (n : Nat) : Nat := n % 4294967296

/-- Right rotation of a 32-bit word. -/
def rotr32 (r x : Nat) : Nat := w32 ((x >>> r) ||| (x <<< (32 - r)))

/-- SHA-256 round constants (FIPS 180-4), written in decimal. -/
def sha256K : List Nat :=
  [1116352408, 1899447441, 3049323471, 3921009573, 961987163, 1508970993,
   2453635748, 2870763221, 3624381080, 310598401, 607225278, 1426881987,
   1925078388, 2162078206, 2614888103, 3248222580, 3835390401, 4022224774,
   264347078, 604807628, 770255983, 1249150122, 1555081692, 1996064986,
   2554220882, 2821834349, 2952996808, 3210313671, 3336571891, 3584528711,
   113926993, 338241895, 666307205, 773529912, 1294757372, 1396182291,
   1695183700, 1986661051, 2177026350, 2456956037, 2730485921, 2820302411,
   3259730800, 3345764771, 3516065817, 3600352804, 4094571909, 275423344,
   430227734, 506948616, 659060556, 883997877, 958139571, 1322822218,
   1537002063, 1747873779, 1955562222, 2024104815, 2227730452, 2361852424,
   2428436474, 2756734187, 3204031479, 3329325298]

/-- Working state of the SHA-256 compression function. -/
structure Hash8 where
  a : Nat
  b : Nat
  c : Nat
  d : Nat
  e : Nat
  f : Nat
  g : Nat
  h : Nat

/-- One SHA-256 round applied to the working state; the argument is the
round constant already added to the schedule word, reduced mod 2^32. -/
def shaRound (st : Hash8) (kw : Nat) : Hash8 :=
  let s1 := (rotr32 6 st.e) ^^^ (rotr32 11 st.e) ^^^ (rotr32 25 st.e)
  let ch := (st.e &&& st.f) ^^^ ((st.e ^^^ 0xffffffff) &&& st.g)
  let t1 := w32 (st.h + s1 + ch + kw)
  let s0 := (rotr32 2 st.a) ^^^ (rotr32 13 st.a) ^^^ (rotr32 22 st.a)
  let maj := (st.a &&& st.b) ^^^ (st.a &&& st.c) ^^^ (st.b &&& st.c)
  let t2 := w32 (s0 + maj)
  ⟨w32 (t1 + t2), st.a, st.b, st.c, w32 (st.d + t1), st.e, st.f, st.g⟩

/-- Message schedule sigma functions. -/
def smallSigma0 (x : Nat) : Nat := (rotr32 7 x) ^^^ (rotr32 18 x) ^^^ (x >>> 3)

/-- Message schedule sigma functions. -/
def smallSigma1 (x : Nat) : Nat := (rotr32 17 x) ^^^ (rotr32 19 x) ^^^ (x >>> 10)

/-- Extend the sixteen block words to the sixty-four schedule words. -/
def extendSchedule (w : List Nat) : List Nat :=
  (List.range 48).foldl
    (fun acc _ =>
      let n := acc.length
      acc ++ [w32 (smallSigma1 (acc.getD (n - 2) 0) + acc.getD (n - 7) 0 +
                   smallSigma0 (acc.getD (n - 15) 0) + acc.getD (n - 16) 0)])
    w

/-- Big-endian 32-bit words from a byte list. -/
def bytesToWords : List Nat → List Nat
  | b0 :: b1 :: b2 :: b3 :: rest => (((b0 * 256 + b1) * 256 + b2) * 256 + b3) :: bytesToWords rest
  | _ => []

/-- SHA-256 compression of one 64-byte block into the running state. -/
def shaCompress (st : Hash8) (block : List Nat) : Hash8 :=
  let w := extendSchedule (bytesToWords block)
  let r := (sha256K.zip w).foldl (fun s kw => shaRound s (w32 (kw.1 + kw.2))) st
  ⟨w32 (st.a + r.a), w32 (st.b + r.b), w32 (st.c + r.c), w32 (st.d + r.d),
   w32 (st.e + r.e), w32 (st.f + r.f), w32 (st.g + r.g), w32 (st.h + r.h)⟩

/-- Eight big-endian bytes of the 64-bit message length. -/
def beBytes8 (n : Nat) : List Nat :=
  (List.range 8).map (fun i => (n >>> ((7 - i) * 8)) &&& 0xff)

/-- SHA-256 message padding. -/
def shaPad (msg : List Nat) : List Nat :=
  msg ++ [0x80] ++ List.replicate ((119 - msg.length % 64) % 64) 0 ++ beBytes8 (8 * msg.length)

/-- Split a byte list into 64-byte blocks; the fuel, set to the list
length by the wrapper below, is ample since each step consumes at least
one byte. -/
def chunks64Fuel : Nat → List Nat → List (List Nat)
  | 0, _ => []
  | _, [] => []
  | fuel + 1, x :: xs => ((x :: xs).take 64) :: chunks64Fuel fuel (xs.drop 63)

/-- Split a byte list into the 64-byte blocks SHA-256 processes. -/
def chunks64 (l : List Nat) : List (List Nat) := chunks64Fuel l.length l

/-- Eight lower-case hex digits of a 32-bit word. -/
def hexWord (n : Nat) : String :=
  String.mk [hexDigitChar (n >>> 28 &&& 15), hexDigitChar (n >>> 24 &&& 15),
             hexDigitChar (n >>> 20 &&& 15), hexDigitChar (n >>> 16 &&& 15),
             hexDigitChar (n >>> 12 &&& 15), hexDigitChar (n >>> 8 &&& 15),
             hexDigitChar (n >>> 4 &&& 15), hexDigitChar (n &&& 15)]

/-- Hex-encoded SHA-256 of a byte list, as sha256.Sum256 followed by
hex.EncodeToString computes in the source. -/
def sha256Hex (msg : List Nat) : String :=
  let init : Hash8 := ⟨1779033703, 3144134277, 1013904242, 2773480762,
                       1359893119, 2600822924, 528734635, 1541459225⟩
  let f := (chunks64 (shaPad msg)).foldl shaCompress init
  hexWord f.a ++ hexWord f.b ++ hexWord f.c ++ hexWord f.d ++
    hexWord f.e ++ hexWord f.f ++ hexWord f.g ++ hexWord f.h

/-- Meta from the source: version, time, prev_cs, cs, signature.  Times
are microseconds since the epoch (the source truncates to microseconds
whenever it sets or hashes a time). -/
structure Meta where
  version : Nat
  time : Int
  prevCS : String
  cs : String
  signature : String
deriving DecidableEq

/-- Config from the source: metadata plus opaque content.  The content
is the parsed value of the raw JSON payload. -/
structure Config where
  meta : Meta
  content : Json

/-- The value normalizeValue produces for a Meta record: json tags v, t,
prev_cs (omitempty), cs, sig (omitempty); time fields format as
microsecond-truncated UTC RFC3339Nano strings. -/
def metaJson (m : Meta) : Json :=
  .obj ([("v", .num m.version), ("t", .str (rfc3339Nano m.time))] ++
    (if m.prevCS = "" then [] else [("prev_cs", .str m.prevCS)]) ++
    [("cs", .str m.cs)] ++
    (if m.signature = "" then [] else [("sig", .str m.signature)]))

/-- The value normalizeValue produces for a whole Config: field _meta,
and field content holding the re-parsed raw payload. -/
def configJson (c : Config) : Json :=
  .obj [("_meta", metaJson c.meta), ("content", c.content)]

/-- computeChecksum from the source: clear cs and signature, take the
canonical JSON bytes, append the RFC3339Nano form of the config's UTC
microsecond-truncated time, hash with SHA-256 and hex-encode. -/
def computeChecksum (c : Config) : String :=
  let tmp : Config := { c with meta := { c.meta with cs := "", signature := "" } }
  let canonical := (configJson tmp).canon
  let ts := rfc3339Nano tmp.meta.time
  sha256Hex (utf8Bytes canonical ++ utf8Bytes ts)

/-- Error kinds of the library, one constructor per distinct error the
embedded code paths produce, carrying the data the Go error messages
carry.  loopDiverges marks inputs on which the Go resequence loop would
run forever (the Lean embedding bounds the walk by a fuel counter). -/
inductive JErr where
  | checksumMismatch (expected computed : String)
  | versionBreak (prevV curV : Nat)
  | chainBreak (prevCS cs : String)
  | timeRegression
  | prevInvalid (inner : JErr)
  | curInvalid (inner : JErr)
  | multipleHeads
  | noHead
  | forkDetected (version : Nat)
  | incompleteChain (found total : Nat)
  | loopDiverges
  | entryInvalid (i : Nat) (inner : JErr)
  | entryCsMismatch (i : Nat)
  | chainBreakAt (i : Nat)
  | versionBreakAt (i : Nat) (prevV curV : Nat)
  | timeRegressionAt (i : Nat)
  | corruptEntry (line : String)
  | notFound
  | resequenceFailed (inner : JErr)
  | invalidChain (inner : JErr)
  | invalidConfig (inner : JErr)
  | invalidPath
deriving DecidableEq

/-- Validate from the source: recompute the checksum and compare. -/
def Config.Validate (c : Config) : Except JErr Unit :=
  let cs := computeChecksum c
  if cs ≠ c.meta.cs then .error (.checksumMismatch c.meta.cs cs) else .ok ()

/-- NextOf from the source: version must increment by one, prev_cs must
match, time must not regress, then both configs must validate. -/
def Config.NextOf (c prev : Config) : Except JErr Unit :=
  if c.meta.version ≠ prev.meta.version + 1 then
    .error (.versionBreak prev.meta.version c.meta.version)
  else if c.meta.prevCS ≠ prev.meta.cs then
    .error (.chainBreak c.meta.prevCS prev.meta.cs)
  else if c.meta.time < prev.meta.time then
    .error .timeRegression
  else
    match prev.Validate with
    | .error e => .error (.prevInvalid e)
    | .ok _ =>
      match c.Validate with
      | .error e => .error (.curInvalid e)
      | .ok _ => .ok ()

/-- UpdateMeta from the source: set the time to now (already truncated
to microseconds in this model), bump the version, move cs into prev_cs,
clear cs and signature, then recompute and store the checksum.  The Go
function can only fail when the raw content does not parse, which the
Json-typed content excludes. -/
def Config.UpdateMeta (c : Config) (now : Int) : Config :=
  let m : Meta := { version := c.meta.version + 1, time := now,
                    prevCS := c.meta.cs, cs := "", signature := "" }
  let cs := computeChecksum { meta := m, content := c.content }
  { meta := { m with cs := cs }, content := c.content }

/-- JournalEntry from the source: id, version, cs, prev_cs, time,
operation label, optional embedded config. -/
structure JournalEntry where
  id : String
  version : Nat
  cs : String
  prevCS : String
  time : Int
  operation : String
  config : Option Config

/-- Whether csToEntry holds an entry under this checksum: some input
entry with non-empty cs equal to it (entries with empty cs are skipped
when the resequence maps are built). -/
def csKnown (entries : List JournalEntry) (p : String) : Bool :=
  entries.any (fun e => e.cs != "" && e.cs == p)

/-- The prevToEntries bucket for one checksum, in input order. -/
def bucket (entries : List JournalEntry) (p : String) : List JournalEntry :=
  entries.filter (fun e => e.cs != "" && e.prevCS == p)

/-- The head-candidate test of Resequence: empty prev_cs, or a prev_cs
that no input entry's checksum accounts for. -/
def isHeadCand (entries : List JournalEntry) (e : JournalEntry) : Bool :=
  e.prevCS == "" || !(csKnown entries e.prevCS)

/-- The head-finding loop of Resequence: error as soon as a second
candidate appears, error if none exists. -/
def findHead (entries : List JournalEntry) : Except JErr JournalEntry :=
  match entries.filter (isHeadCand entries) with
  | [] => .error .noHead
  | [h] => .ok h
  | _ => .error .multipleHeads

/-- The walk of Resequence following prevToEntries from the head.  The
fuel bounds the walk at one more than the input length; exhausting it
means the walk revisited an entry, on which the Go loop never
terminates, reported here as loopDiverges. -/
def chase (pte : String → List JournalEntry) :
    Nat → JournalEntry → List JournalEntry → Except JErr (List JournalEntry)
  | 0, _, _ => .error .loopDiverges
  | fuel + 1, current, acc =>
    let acc2 := acc ++ [current]
    match pte current.cs with
    | [] => .ok acc2
    | [next] => chase pte fuel next acc2
    | _ :: _ :: _ => .error (.forkDetected current.version)

/-- Resequence from the source: rebuild the ordered chain from scattered
journal entries; empty input yields an empty result. -/
def Resequence (entries : List JournalEntry) : Except JErr (List JournalEntry) :=
  match entries with
  | [] => .ok []
  | _ :: _ => do
    let head ← findHead entries
    let ordered ← chase (bucket entries) (entries.length + 1) head []
    if ordered.length ≠ entries.length then
      .error (.incompleteChain ordered.length entries.length)
    else
      .ok ordered

/-- Per-entry config consistency check of ValidateChain: an embedded
config must validate and agree with the entry checksum. -/
def entryConfigOk (i : Nat) (e : JournalEntry) : Except JErr Unit :=
  match e.config with
  | none => .ok ()
  | some c =>
    match c.Validate with
    | .error err => .error (.entryInvalid i err)
    | .ok _ => if e.cs ≠ c.meta.cs then .error (.entryCsMismatch i) else .ok ()

/-- Adjacency checks of ValidateChain at position i. -/
def adjacentOk (i : Nat) (prev e : JournalEntry) : Except JErr Unit :=
  if e.prevCS ≠ prev.cs then .error (.chainBreakAt i)
  else if e.version ≠ prev.version + 1 then .error (.versionBreakAt i prev.version e.version)
  else if e.time < prev.time then .error (.timeRegressionAt i)
  else .ok ()

/-- The loop of ValidateChain from position i onward, prev being the
entry at position i - 1. -/
def validateChainAux (i : Nat) (prev : JournalEntry) :
    List JournalEntry → Except JErr Unit
  | [] => .ok ()
  | e :: rest => do
    entryConfigOk i e
    adjacentOk i prev e
    validateChainAux (i + 1) e rest

/-- ValidateChain from the source: config consistency of every entry and
the Meta chain invariants across each adjacent pair. -/
def ValidateChain : List JournalEntry → Except JErr Unit
  | [] => .ok ()
  | e :: rest => do
    entryConfigOk 0 e
    validateChainAux 1 e rest

/-- ReadAll from the source, over the journal byte stream split into
lines.  The JSON line parser is a parameter: json.Unmarshal is a pure
function of the line contents alone, and ReadAll inspects only whether
it succeeds, so the theorems below hold for the real parser.  An entry
that fails to parse aborts with an error derived from that line's
contents; empty lines are skipped. -/
def ReadAll (parse : String → Option JournalEntry) :
    List String → Except JErr (List JournalEntry)
  | [] => .ok []
  | line :: rest =>
    if line = "" then ReadAll parse rest
    else
      match parse line with
      | none => .error (.corruptEntry line)
      | some e => do
        let es ← ReadAll parse rest
        .ok (e :: es)

/-- FindByID from the source. -/
def FindByID (journal : List JournalEntry) (id : String) : List JournalEntry :=
  journal.filter (fun e => e.id == id)

/-- First-seen order of the distinct ids in the journal.  The Go source
groups entries with a map and iterates it in unspecified order; the
per-id retention property proved below is independent of the order. -/
def uniqueIds (entries : List JournalEntry) : List String :=
  entries.foldl (fun acc e => if acc.contains e.id then acc else acc ++ [e.id]) []

/-- Compact from the source, producing the rewritten journal contents:
per id, resequence; on success keep the last ten entries of the ordered
chain, on failure keep the id's entries verbatim. -/
def Compact (entries : List JournalEntry) : List JournalEntry :=
  ((uniqueIds entries).map (fun i =>
    let g := entries.filter (fun e => e.id == i)
    match Resequence g with
    | .ok ordered => ordered.drop (ordered.length - 10)
    | .error _ => g)).flatten

/-- Snapshot store contents: the configs/<id>/v<n>.json key space of the
storage backend keyed by (id, version), writes being whole-object
replacement.  Save marshals the Config and Load parses it back; content
round-trips through its parsed Json value, so the store holds Config
values. -/
abbrev SnapStore := List ((String × Nat) × Config)

/-- Raw lookup of a snapshot key. -/
def snapFind (s : SnapStore) (id : String) (v : Nat) : Option Config :=
  (s.find? (fun kv => kv.1.1 == id && kv.1.2 == v)).map (fun kv => kv.2)

/-- Save from ConfigStorage: whole-object replace at the snapshot key of
the config's own version. -/
def snapSave (s : SnapStore) (id : String) (cfg : Config) : SnapStore :=
  ((id, cfg.meta.version), cfg) ::
    s.filter (fun kv => !(kv.1.1 == id && kv.1.2 == cfg.meta.version))

/-- Load from ConfigStorage: read, parse, and validate when a checksum
is present; an absent checksum means pre-hash staging and is accepted
without validation. -/
def snapLoad (s : SnapStore) (id : String) (v : Nat) : Except JErr Config :=
  match snapFind s id v with
  | none => .error .notFound
  | some cfg =>
    if cfg.meta.cs ≠ "" then
      match cfg.Validate with
      | .error e => .error (.invalidConfig e)
      | .ok _ => .ok cfg
    else .ok cfg

/-- ListVersions from ConfigStorage: the version numbers of the stored
snapshot keys of the id. -/
def listVersions (s : SnapStore) (id : String) : List Nat :=
  (s.filter (fun kv => kv.1.1 == id)).map (fun kv => kv.1.2)

/-- LoadLatest from ConfigStorage: load the maximum stored version, or
not-found when the id has no snapshots. -/
def loadLatest (s : SnapStore) (id : String) : Except JErr Config :=
  match listVersions s id with
  | [] => .error .notFound
  | v :: vs => snapLoad s id (vs.foldl max v)

/-- Reconstruct from the source: filter the journal to the id; no
entries means falling through to the snapshot store's latest; otherwise
resequence, validate the chain, and return the tail entry's embedded
config, loading the tail version's snapshot when none is embedded.  The
getLast fallback branch is unreachable: a successful resequence of a
non-empty input is non-empty. -/
def ReconstructJ (journal : List JournalEntry) (snaps : SnapStore) (id : String) :
    Except JErr Config :=
  match FindByID journal id with
  | [] => loadLatest snaps id
  | e :: rest =>
    match Resequence (e :: rest) with
    | .error err => .error (.resequenceFailed err)
    | .ok ordered =>
      match ValidateChain ordered with
      | .error err => .error (.invalidChain err)
      | .ok _ =>
        match ordered.getLast? with
        | none => .error .notFound
        | some latest =>
          match latest.config with
          | some c => .ok c
          | none => snapLoad snaps id latest.version

/-- Manager state: the snapshot store, the journal contents and the
in-memory cache. -/
structure MState where
  snaps : SnapStore
  journal : List JournalEntry
  cache : List (String × Config)

/-- A Manager over fresh storage. -/
def emptyState : MState := ⟨[], [], []⟩

/-- Cache lookup. -/
def cacheFind (c : List (String × Config)) (id : String) : Option Config :=
  (c.find? (fun kv => kv.1 == id)).map (fun kv => kv.2)

/-- Cache assignment. -/
def cacheInsert (c : List (String × Config)) (id : String) (cfg : Config) :
    List (String × Config) :=
  (id, cfg) :: c.filter (fun kv => kv.1 != id)

/-- The journal entry a Manager mutation appends for a config: its Meta
fields mirrored and the config embedded. -/
def mkEntry (id : String) (op : String) (cfg : Config) : JournalEntry :=
  ⟨id, cfg.meta.version, cfg.meta.cs, cfg.meta.prevCS, cfg.meta.time, op, some cfg⟩

/-- State change shared by Create, Update and Rollback: write the
snapshot, append the journal entry, update the cache. -/
def commit (st : MState) (id : String) (op : String) (cfg : Config) : MState :=
  { snaps := snapSave st.snaps id cfg,
    journal := st.journal ++ [mkEntry id op cfg],
    cache := cacheInsert st.cache id cfg }

/-- getLatest from the source: cache hit returns immediately, otherwise
reconstruct from the journal and populate the cache. -/
def getLatestM (st : MState) (id : String) : Except JErr (Config × MState) :=
  match cacheFind st.cache id with
  | some cfg => .ok (cfg, st)
  | none =>
    match ReconstructJ st.journal st.snaps id with
    | .error e => .error e
    | .ok cfg => .ok (cfg, { st with cache := cacheInsert st.cache id cfg })

/-- The zero Meta of a freshly constructed Config (Go zero values). -/
def metaZero : Meta := ⟨0, 0, "", "", ""⟩

/-- Create from the source (no signer configured): version 0 meta,
UpdateMeta to version 1, snapshot, create journal entry, cache. -/
def mCreate (st : MState) (id : String) (content : Json) (now : Int) : MState × Config :=
  let cfg := Config.UpdateMeta ⟨metaZero, content⟩ now
  (commit st id "create" cfg, cfg)

/-- Update from the source: start a new config from the latest config's
meta and the new content, advance it with UpdateMeta, commit. -/
def mUpdate (st : MState) (id : String) (content : Json) (now : Int) :
    Except JErr (MState × Config) :=
  match getLatestM st id with
  | .error e => .error e
  | .ok (cur, st1) =>
    let cfg := Config.UpdateMeta ⟨cur.meta, content⟩ now
    .ok (commit st1 id "update" cfg, cfg)

/-- Rollback from the source: the target version's content under the
latest version's meta, advanced by UpdateMeta, committed with a
rollback_to_v<target> journal entry. -/
def mRollback (st : MState) (id : String) (version : Nat) (now : Int) :
    Except JErr (MState × Config) :=
  match snapLoad st.snaps id version with
  | .error e => .error e
  | .ok target =>
    match getLatestM st id with
    | .error e => .error e
    | .ok (latest, st1) =>
      let cfg := Config.UpdateMeta ⟨latest.meta, target.content⟩ now
      .ok (commit st1 id ("rollback_to_v" ++ toString version) cfg, cfg)

/-- ValidateChain of the Manager: resequence the id's journal entries
(an empty journal is valid) and run the chain validation. -/
def mValidateChain (st : MState) (id : String) : Except JErr Unit :=
  match FindByID st.journal id with
  | [] => .ok ()
  | e :: rest =>
    match Resequence (e :: rest) with
    | .error err => .error err
    | .ok ordered => ValidateChain ordered

/-- The configs produced by one create followed by the given updates:
each next config starts from the previous config's meta and the new
content, advanced by UpdateMeta at the given time. -/
def pipelineCfgs (c0 : Json) (t0 : Int) (ups : List (Json × Int)) : List Config :=
  ups.scanl (fun prev u => Config.UpdateMeta ⟨prev.meta, u.1⟩ u.2)
    (Config.UpdateMeta ⟨metaZero, c0⟩ t0)

/-- Run one create then the given updates through the Manager starting
from fresh storage. -/
def runPipeline (id : String) (c0 : Json) (t0 : Int) (ups : List (Json × Int)) :
    Except JErr (MState × Config) :=
  ups.foldlM (fun acc u => mUpdate acc.1 id u.1 u.2) (mCreate emptyState id c0 t0)

/-- Split a character list on slash separators. -/
def splitSlash : List Char → List (List Char)
  | [] => [[]]
  | c :: rest =>
    match splitSlash rest with
    | [] => [[]]
    | seg :: segs => if c = '/' then [] :: seg :: segs else (c :: seg) :: segs

/-- Join path elements with slashes. -/
def joinSlash : List String → String
  | [] => ""
  | [s] => s
  | s :: rest => s ++ "/" ++ joinSlash rest

/-- Go strings.HasPrefix, over character sequences (the paths the
storage layer manipulates are ASCII, where character prefix and byte
prefix coincide). -/
def strStarts (s pre : String) : Bool := pre.data.isPrefixOf s.data

/-- Lexical cleaning of an absolute slash path, the computation
filepath.Clean performs for rooted paths: drop empty and dot elements,
let parent elements pop, never ascending above the root slash. -/
def cleanAbs (p : String) : String :=
  let parts := ((splitSlash p.data).map (fun seg => String.mk seg)).foldl
    (fun acc part =>
      if part = "" || part = "." then acc
      else if part = ".." then acc.dropLast
      else acc ++ [part])
    []
  "/" ++ joinSlash parts

/-- filepath.Join of the storage root and a request path. -/
def joinPath (root path : String) : String := cleanAbs (root ++ "/" ++ path)

/-- Modelled local filesystem: absolute file path to contents. -/
abbrev FileSys := List (String × String)

/-- FileStorage.Read from the source: join root and path, reject when
the cleaned full path does not have the root as a string prefix, else
read the file. -/
def fsRead (root : String) (fsys : FileSys) (path : String) : Except JErr String :=
  let full := joinPath root path
  if !(strStarts full root) then .error .invalidPath
  else
    match (fsys.find? (fun kv => kv.1 == full)).map (fun kv => kv.2) with
    | none => .error .notFound
    | some d => .ok d

/-- FileStorage.Write from the source: join root and path and write the
file; the source performs no path validation here. -/
def fsWrite (root : String) (fsys : FileSys) (path data : String) : FileSys :=
  (joinPath root path, data) :: fsys.filter (fun kv => kv.1 != joinPath root path)

/-- FileStorage.Delete from the source: join root and path and remove
the file; the source performs no path validation here. -/
def fsDelete (root : String) (fsys : FileSys) (path : String) : FileSys :=
  fsys.filter (fun kv => kv.1 != joinPath root path)

/-- The checksum rule as the specification words it: hex-encoded SHA-256
of the canonical JSON encoding of the Config with Meta.CS and
Meta.Signature cleared, concatenated with the RFC3339Nano string of the
Config's time (times in this model are already UTC microsecond
values). -/
def checksumSpec (c : Config) : String :=
  let cleared : Config := { c with meta := { c.meta with cs := "", signature := "" } }
  sha256Hex (utf8Bytes ((configJson cleared).canon ++ rfc3339Nano c.meta.time))

/-- Byte concatenation commutes with UTF-8 encoding. -/
lemma utf8Bytes_append (a b : String) : utf8Bytes (a ++ b) = utf8Bytes a ++ utf8Bytes b := by
  unfold utf8Bytes
  rw [String.data_append, List.map_append, List.flatten_append]

/-- C1: for every Config (content modelled as its parsed JSON value, the
shape the source re-parses raw content into), the checksum computed by
computeChecksum equals the hex-encoded SHA-256 of the canonical JSON
encoding of the Config with Meta.CS and Meta.Signature cleared,
concatenated with the RFC3339Nano string of the Config's microsecond
UTC time; and Validate succeeds exactly when Meta.CS equals this
value. -/
theorem checksum_rule_and_validate (c : Config) :
    computeChecksum c = checksumSpec c ∧
      (c.Validate = .ok () ↔ c.meta.cs = computeChecksum c) := by
  constructor
  · unfold computeChecksum checksumSpec
    simp [utf8Bytes_append]
  · unfold Config.Validate
    constructor
    · intro h
      by_cases hcs : computeChecksum c ≠ c.meta.cs
      · simp [hcs] at h
      · push_neg at hcs
        exact hcs.symm
    · intro h
      simp [h]

/-- C10: Resequence of the empty entry list succeeds with the empty
result rather than failing with a no-head error. -/
theorem resequence_empty_ok : Resequence [] = .ok [] := rfl

/-- Validate succeeds on every UpdateMeta output: the stored checksum is
the recomputation over the config with cs and signature cleared, and
UpdateMeta stores exactly that recomputation. -/
lemma validate_updateMeta (c : Config) (now : Int) :
    (c.UpdateMeta now).Validate = .ok () := by
  unfold Config.Validate Config.UpdateMeta computeChecksum
  simp

/-- The adjacency facts the claim lists for one update step. -/
def ChainPairOk (prev c : Config) : Prop :=
  c.NextOf prev = .ok () ∧ c.meta.prevCS = prev.meta.cs ∧
    c.meta.version = prev.meta.version + 1 ∧ prev.meta.time ≤ c.meta.time

/-- NextOf succeeds between a validating config and its UpdateMeta
successor when the clock did not run backwards. -/
lemma nextOf_updateMeta (prev : Config) (content : Json) (now : Int)
    (hv : prev.Validate = .ok ()) (ht : prev.meta.time ≤ now) :
    Config.NextOf (Config.UpdateMeta ⟨prev.meta, content⟩ now) prev = .ok () := by
  unfold Config.NextOf
  simp [show (Config.UpdateMeta ⟨prev.meta, content⟩ now).meta.version = prev.meta.version + 1
          from rfl,
        show (Config.UpdateMeta ⟨prev.meta, content⟩ now).meta.prevCS = prev.meta.cs from rfl,
        show (Config.UpdateMeta ⟨prev.meta, content⟩ now).meta.time = now from rfl,
        hv, validate_updateMeta, not_lt.mpr ht]

/-- Induction step container for the pipeline chain proof. -/
lemma pipeline_chain_aux (start : Config) (hv : start.Validate = .ok ())
    (ups : List (Json × Int))
    (ht : (start.meta.time :: ups.map (fun u => u.2)).Chain' (fun a b => a ≤ b)) :
    (ups.scanl (fun prev u => Config.UpdateMeta ⟨prev.meta, u.1⟩ u.2) start).Chain'
      ChainPairOk := by
  induction ups generalizing start with
  | nil =>
    simp [List.scanl]
  | cons u rest ih =>
    rw [List.scanl_cons]
    have hle : start.meta.time ≤ u.2 := by
      rcases List.chain'_cons.mp ht with ⟨h1, _⟩
      exact h1
    have hnext : ChainPairOk start (Config.UpdateMeta ⟨start.meta, u.1⟩ u.2) := by
      refine ⟨nextOf_updateMeta start u.1 u.2 hv hle, rfl, rfl, ?_⟩
      exact hle
    have htail :
        ((Config.UpdateMeta ⟨start.meta, u.1⟩ u.2).meta.time ::
            rest.map (fun v => v.2)).Chain' (fun a b => a ≤ b) := by
      have : (Config.UpdateMeta ⟨start.meta, u.1⟩ u.2).meta.time = u.2 := rfl
      rw [this]
      rcases List.chain'_cons.mp ht with ⟨_, h2⟩
      exact h2
    have := ih (Config.UpdateMeta ⟨start.meta, u.1⟩ u.2)
      (validate_updateMeta ⟨start.meta, u.1⟩ u.2) htail
    rcases rest with _ | ⟨v, rest'⟩
    · simp only [List.scanl] at this ⊢
      exact List.chain'_pair.mpr hnext
    · rw [List.scanl_cons] at this ⊢
      exact List.chain'_cons.mpr ⟨hnext, this⟩

/-- C3: every Config produced by UpdateMeta validates; and along the
chain produced by one create followed by updates, every adjacent pair
(prev, c) satisfies NextOf, with c's prev_cs equal to prev's cs, c's
version equal to prev's version plus one, and c's time not earlier than
prev's time, provided the wall-clock readings passed to the steps are
non-decreasing (the source reads time.Now, which this model passes
explicitly). -/
theorem updateMeta_validate_and_pipeline_chain :
    (∀ (c : Config) (now : Int), (c.UpdateMeta now).Validate = .ok ()) ∧
    (∀ (c0 : Json) (t0 : Int) (ups : List (Json × Int)),
      (t0 :: ups.map (fun u => u.2)).Chain' (fun a b => a ≤ b) →
      (pipelineCfgs c0 t0 ups).Chain' ChainPairOk) := by
  refine ⟨validate_updateMeta, ?_⟩
  intro c0 t0 ups ht
  unfold pipelineCfgs
  apply pipeline_chain_aux
  · exact validate_updateMeta ⟨metaZero, c0⟩ t0
  · have : (Config.UpdateMeta ⟨metaZero, c0⟩ t0).meta.time = t0 := rfl
    rw [this]
    exact ht

/-- Witness for C3 at a concrete two-step chain. -/
theorem updateMeta_validate_and_pipeline_chain_witness :
    ((0 : Int) :: [(Json.null, (1 : Int))].map (fun u => u.2)).Chain' (fun a b => a ≤ b) ∧
      (pipelineCfgs Json.null 0 [(Json.null, 1)]).Chain' ChainPairOk := by
  have h : ((0 : Int) :: [(Json.null, (1 : Int))].map (fun u => u.2)).Chain'
      (fun a b => a ≤ b) := by
    simp
  exact ⟨h, updateMeta_validate_and_pipeline_chain.2 Json.null 0 [(Json.null, 1)] h⟩

/-- Chain shape of an entry list: the first entry's prev_cs equals the
given checksum and each later entry's prev_cs equals its predecessor's
cs. -/
def ChainFrom : String → List JournalEntry → Prop
  | _, [] => True
  | p, e :: rest => e.prevCS = p ∧ ChainFrom e.cs rest

instance chainFromDec : (p : String) → (l : List JournalEntry) → Decidable (ChainFrom p l)
  | _, [] => isTrue trivial
  | p, e :: rest =>
    haveI : Decidable (ChainFrom e.cs rest) := chainFromDec e.cs rest
    decidable_of_iff (e.prevCS = p ∧ ChainFrom e.cs rest) Iff.rfl

/-- Internal links of a chain list: each subsequent entry's prev_cs
equals its predecessor's cs. -/
def Links : List JournalEntry → Prop
  | [] => True
  | e :: rest => ChainFrom e.cs rest

instance linksDec : (l : List JournalEntry) → Decidable (Links l)
  | [] => isTrue trivial
  | e :: rest => chainFromDec e.cs rest

instance listEntryNilDec (c : List JournalEntry) : Decidable (c = []) :=
  match c with
  | [] => isTrue rfl
  | _ :: _ => isFalse (fun h => List.noConfusion h)

/-- The single-valid-chain hypothesis of the claim: non-empty, pairwise
distinct non-empty cs values, exactly one entry with empty prev_cs, and
each subsequent entry's prev_cs equal to its predecessor's cs. -/
def IsChain (c : List JournalEntry) : Prop :=
  c ≠ [] ∧ (∀ e ∈ c, e.cs ≠ "") ∧ (c.map (fun e => e.cs)).Nodup ∧
    (c.filter (fun e => e.prevCS == "")).length = 1 ∧ Links c

instance isChainDec (c : List JournalEntry) : Decidable (IsChain c) := by
  unfold IsChain
  infer_instance

/-- Every member of a chain either starts it or links to a member. -/
lemma chainFrom_prev_of_mem {p : String} {l : List JournalEntry} (h : ChainFrom p l) :
    ∀ e ∈ l, e.prevCS = p ∨ ∃ d ∈ l, e.prevCS = d.cs := by
  induction l generalizing p with
  | nil => intro e he; cases he
  | cons x t ih =>
    intro e he
    rcases h with ⟨hx, ht⟩
    rcases List.mem_cons.mp he with he | he
    · left
      rw [he, hx]
    · rcases ih ht e he with h1 | ⟨d, hd, h2⟩
      · right
        exact ⟨x, List.mem_cons_self x t, h1⟩
      · right
        exact ⟨d, List.mem_cons_of_mem x hd, h2⟩

/-- Checksum at the end of a list, the link point for what follows. -/
def endCs (p : String) (l : List JournalEntry) : String :=
  (l.getLast?).elim p (fun e => e.cs)

/-- endCs steps over a cons. -/
lemma endCs_cons (p : String) (x : JournalEntry) (xs : List JournalEntry) :
    endCs p (x :: xs) = endCs x.cs xs := by
  cases xs with
  | nil => rfl
  | cons y ys =>
    unfold endCs
    rw [List.getLast?_cons_cons]
    cases hg : (y :: ys).getLast? with
    | none =>
      exact absurd (List.getLast?_eq_none_iff.mp hg) (by simp)
    | some a => simp

/-- Chain shape splits across an append at the end checksum of the
prefix. -/
lemma chainFrom_append {xs : List JournalEntry} :
    ∀ {p : String} {ys : List JournalEntry},
      ChainFrom p (xs ++ ys) ↔ ChainFrom p xs ∧ ChainFrom (endCs p xs) ys := by
  induction xs with
  | nil =>
    intro p ys
    simp [ChainFrom, endCs]
  | cons x t ih =>
    intro p ys
    simp only [List.cons_append, ChainFrom, List.append_eq, ih, endCs_cons, and_assoc]

/-- Membership in a prevToEntries bucket. -/
lemma mem_bucket {l : List JournalEntry} {q : String} {e : JournalEntry} :
    e ∈ bucket l q ↔ e ∈ l ∧ e.cs ≠ "" ∧ e.prevCS = q := by
  unfold bucket
  rw [List.mem_filter]
  simp [and_assoc]

/-- The bucket of a chain member's checksum, over the chain itself, is
the next chain entry (or empty at the tail). -/
lemma bucket_chain (before rest : List JournalEntry) (cur : JournalEntry)
    (hch : ChainFrom "" (before ++ cur :: rest))
    (hcs : ∀ e ∈ before ++ cur :: rest, e.cs ≠ "")
    (hnd : ((before ++ cur :: rest).map (fun e => e.cs)).Nodup) :
    bucket (before ++ cur :: rest) cur.cs = rest.take 1 := by
  have hcur_cs : cur.cs ≠ "" := hcs cur (by simp)
  have hnotin_before : cur.cs ∉ before.map (fun e => e.cs) := by
    intro hmem
    rw [List.map_append] at hnd
    have hdisj := List.disjoint_of_nodup_append hnd
    exact hdisj hmem (by simp)
  have hnotin_rest : cur.cs ∉ rest.map (fun e => e.cs) := by
    intro hmem
    rw [List.map_append] at hnd
    have := (List.Nodup.of_append_right hnd)
    rw [List.map_cons, List.nodup_cons] at this
    exact this.1 hmem
  rcases chainFrom_append.mp hch with ⟨hbefore, hrest⟩
  rcases hrest with ⟨hcurprev, hrest⟩
  unfold bucket
  rw [List.filter_append]
  have hbef : before.filter (fun e => e.cs != "" && e.prevCS == cur.cs) = [] := by
    rw [List.filter_eq_nil_iff]
    intro e he
    rcases chainFrom_prev_of_mem hbefore e he with h1 | ⟨d, hd, h2⟩
    · have : ("" : String) ≠ cur.cs := Ne.symm hcur_cs
      simp [h1, this]
    · have : d.cs ≠ cur.cs := by
        intro heq
        exact hnotin_before (heq ▸ List.mem_map_of_mem (fun e : JournalEntry => e.cs) hd)
      simp [h2, this]
  rw [hbef, List.nil_append]
  have hcurnot : (cur.cs != "" && cur.prevCS == cur.cs) = false := by
    have hne : cur.prevCS ≠ cur.cs := by
      rcases List.eq_nil_or_concat before with hb | ⟨bs, b, hb⟩
      · subst hb
        have : cur.prevCS = "" := by
          simpa [endCs] using hcurprev
        rw [this]
        exact Ne.symm hcur_cs
      · subst hb
        have hlast : endCs "" (bs.concat b) = b.cs := by
          simp [endCs, List.concat_eq_append]
        rw [hlast] at hcurprev
        have : b.cs ≠ cur.cs := by
          intro hx
          refine hnotin_before (hx ▸ List.mem_map_of_mem (fun e : JournalEntry => e.cs) ?_)
          simp [List.concat_eq_append]
        rw [hcurprev]
        exact this
    simp [hne]
  cases rest with
  | nil =>
    simp only [List.filter_cons, hcurnot, List.filter_nil, Bool.false_eq_true, if_false,
      List.take_nil]
  | cons r rt =>
    rcases hrest with ⟨hr, hrt⟩
    have hrcs : r.cs ≠ "" := hcs r (by simp)
    have hrpos : (r.cs != "" && r.prevCS == cur.cs) = true := by
      simp [hr, hrcs]
    have hrt_none : rt.filter (fun e => e.cs != "" && e.prevCS == cur.cs) = [] := by
      rw [List.filter_eq_nil_iff]
      intro e he
      rcases chainFrom_prev_of_mem hrt e he with h1 | ⟨d, hd, h2⟩
      · have : r.cs ≠ cur.cs := by
          intro hx
          refine hnotin_rest (hx ▸ List.mem_map_of_mem (fun e : JournalEntry => e.cs) ?_)
          simp
        simp [h1, this]
      · have : d.cs ≠ cur.cs := by
          intro hx
          refine hnotin_rest (hx ▸ List.mem_map_of_mem (fun e : JournalEntry => e.cs) ?_)
          exact List.mem_cons_of_mem r hd
        simp [h2, this]
    simp only [List.filter_cons, hcurnot, hrpos, Bool.false_eq_true, if_false, if_true,
      hrt_none, List.take_succ_cons, List.take_zero]

/-- Reduction of an Except bind on a success value. -/
lemma except_bind_ok {α β : Type} (a : α) (f : α → Except JErr β) :
    (do
      let x ← Except.ok a
      f x) = f a := rfl

/-- A terminating walk of the resequence loop: from the start entry,
every bucket along the way is a singleton, and the final entry's bucket
is empty. -/
inductive PathOk (pte : String → List JournalEntry) : JournalEntry → List JournalEntry → Prop where
  | last (cur : JournalEntry) : pte cur.cs = [] → PathOk pte cur [cur]
  | step (cur next : JournalEntry) (rest : List JournalEntry) :
      pte cur.cs = [next] → PathOk pte next rest → PathOk pte cur (cur :: rest)

/-- A walk with enough fuel computes exactly its path. -/
lemma chase_complete {pte : String → List JournalEntry} {cur : JournalEntry}
    {path : List JournalEntry} (h : PathOk pte cur path) :
    ∀ fuel acc, path.length ≤ fuel → chase pte fuel cur acc = .ok (acc ++ path) := by
  induction h with
  | last cur hend =>
    intro fuel acc hf
    match fuel, hf with
    | f + 1, _ =>
      unfold chase
      rw [hend]
  | step cur next rest hstep hrest ih =>
    intro fuel acc hf
    match fuel, hf with
    | f + 1, hf =>
      unfold chase
      rw [hstep]
      have hrl : rest.length ≤ f := by
        simp only [List.length_cons] at hf
        omega
      show chase pte f next (acc ++ [cur]) = Except.ok (acc ++ cur :: rest)
      rw [ih f (acc ++ [cur]) hrl, List.append_assoc]
      rfl

/-- A successful walk is described by a path. -/
lemma chase_sound {pte : String → List JournalEntry} :
    ∀ {fuel : Nat} {cur : JournalEntry} {acc out : List JournalEntry},
      chase pte fuel cur acc = .ok out →
      ∃ path, out = acc ++ path ∧ PathOk pte cur path := by
  intro fuel
  induction fuel with
  | zero =>
    intro cur acc out h
    exact absurd h (by unfold chase; simp)
  | succ f ih =>
    intro cur acc out h
    unfold chase at h
    cases hb : pte cur.cs with
    | nil =>
      rw [hb] at h
      refine ⟨[cur], ?_, PathOk.last cur hb⟩
      cases h
      rfl
    | cons nx tl =>
      cases tl with
      | nil =>
        rw [hb] at h
        rcases ih h with ⟨path, hout, hpath⟩
        refine ⟨cur :: path, ?_, PathOk.step cur nx path hb hpath⟩
        rw [hout, List.append_assoc]
        rfl
      | cons b bs =>
        rw [hb] at h
        cases h

/-- A walk from a given start is unique. -/
lemma pathOk_unique {pte : String → List JournalEntry} {cur : JournalEntry}
    {p1 : List JournalEntry} (h1 : PathOk pte cur p1) :
    ∀ {p2 : List JournalEntry}, PathOk pte cur p2 → p1 = p2 := by
  induction h1 with
  | last cur hend =>
    intro p2 h2
    cases h2 with
    | last _ _ => rfl
    | step _ next rest hstep _ =>
      rw [hend] at hstep
      cases hstep
  | step cur next rest hstep hrest ih =>
    intro p2 h2
    cases h2 with
    | last _ hend =>
      rw [hend] at hstep
      cases hstep
    | step _ next2 rest2 hstep2 hrest2 =>
      rw [hstep] at hstep2
      cases hstep2
      rw [ih hrest2]

/-- Every suffix of a walk is the walk from its first entry. -/
lemma pathOk_suffix {pte : String → List JournalEntry} {cur : JournalEntry}
    {path : List JournalEntry} (h : PathOk pte cur path) :
    ∀ xs z ys, path = xs ++ z :: ys → PathOk pte z (z :: ys) := by
  induction h with
  | last cur hend =>
    intro xs z ys heq
    cases xs with
    | nil =>
      simp only [List.nil_append, List.cons.injEq] at heq
      rcases heq with ⟨rfl, hys⟩
      rw [← hys]
      exact PathOk.last cur hend
    | cons a as =>
      simp only [List.cons_append, List.cons.injEq] at heq
      rcases heq with ⟨rfl, hrest⟩
      exact absurd hrest.symm (List.append_ne_nil_of_right_ne_nil as (by simp))
  | step cur next rest hstep hrest ih =>
    intro xs z ys heq
    cases xs with
    | nil =>
      simp only [List.nil_append, List.cons.injEq] at heq
      rcases heq with ⟨rfl, hys⟩
      rw [← hys]
      exact PathOk.step cur next rest hstep hrest
    | cons a as =>
      simp only [List.cons_append, List.cons.injEq] at heq
      exact ih as z ys heq.2

/-- A walk visits no entry twice: a revisit would make the deterministic
walk repeat forever, contradicting its termination. -/
lemma pathOk_nodup {pte : String → List JournalEntry} {cur : JournalEntry}
    {path : List JournalEntry} (h : PathOk pte cur path) : path.Nodup := by
  induction h with
  | last cur hend => simp
  | step cur next rest hstep hrest ih =>
    rw [List.nodup_cons]
    refine ⟨?_, ih⟩
    intro hmem
    rcases List.append_of_mem hmem with ⟨s, t, hst⟩
    have hsub : PathOk pte cur (cur :: t) :=
      pathOk_suffix hrest s cur t hst
    have hfull : PathOk pte cur (cur :: rest) := PathOk.step cur next rest hstep hrest
    have huniq := pathOk_unique hfull hsub
    have ht : rest = t := by
      injection huniq
    have hlen := congrArg List.length hst
    rw [List.length_append, List.length_cons, ← ht] at hlen
    omega

/-- Every entry of a walk is the start or fills some singleton bucket. -/
lemma pathOk_mem_step {pte : String → List JournalEntry} {cur : JournalEntry}
    {path : List JournalEntry} (h : PathOk pte cur path) :
    ∀ e ∈ path, e = cur ∨ ∃ q, pte q = [e] := by
  induction h with
  | last cur hend =>
    intro e he
    left
    simpa using he
  | step cur next rest hstep hrest ih =>
    intro e he
    rcases List.mem_cons.mp he with he | he
    · left
      exact he
    · rcases ih e he with rfl | ⟨q, hq⟩
      · right
        exact ⟨cur.cs, hstep⟩
      · right
        exact ⟨q, hq⟩

/-- Boolean any over a permutation. -/
lemma any_perm {l c : List JournalEntry} (h : l.Perm c) (p : JournalEntry → Bool) :
    l.any p = c.any p := by
  cases hc : c.any p with
  | true =>
    rcases List.any_eq_true.mp hc with ⟨x, hx, hpx⟩
    exact List.any_eq_true.mpr ⟨x, h.mem_iff.mpr hx, hpx⟩
  | false =>
    cases hl : l.any p with
    | false => rfl
    | true =>
      rcases List.any_eq_true.mp hl with ⟨x, hx, hpx⟩
      have : c.any p = true := List.any_eq_true.mpr ⟨x, h.mem_iff.mp hx, hpx⟩
      rw [this] at hc
      cases hc

/-- csKnown is permutation invariant. -/
lemma csKnown_perm {l c : List JournalEntry} (h : l.Perm c) (q : String) :
    csKnown l q = csKnown c q :=
  any_perm h _

/-- The head-candidate test is permutation invariant in its list
argument. -/
lemma isHeadCand_perm {l c : List JournalEntry} (h : l.Perm c) (e : JournalEntry) :
    isHeadCand l e = isHeadCand c e := by
  unfold isHeadCand
  rw [csKnown_perm h]

/-- Over the chain itself, the head is the only candidate. -/
lemma filter_headCand_chain (h : JournalEntry) (t : List JournalEntry)
    (hprev : h.prevCS = "") (hlinks : ChainFrom h.cs t)
    (hcs : ∀ e ∈ h :: t, e.cs ≠ "") :
    (h :: t).filter (isHeadCand (h :: t)) = [h] := by
  have hh : isHeadCand (h :: t) h = true := by
    unfold isHeadCand
    simp [hprev]
  have ht : ∀ e ∈ t, isHeadCand (h :: t) e = false := by
    intro e he
    have hd : ∃ d ∈ h :: t, e.prevCS = d.cs := by
      rcases chainFrom_prev_of_mem hlinks e he with h1 | ⟨d, hd, h2⟩
      · exact ⟨h, List.mem_cons_self h t, h1⟩
      · exact ⟨d, List.mem_cons_of_mem h hd, h2⟩
    rcases hd with ⟨d, hdmem, hdeq⟩
    have hdcs : d.cs ≠ "" := hcs d hdmem
    unfold isHeadCand
    have h1 : (e.prevCS == "") = false := by
      simp [hdeq, hdcs]
    have h2 : csKnown (h :: t) e.prevCS = true := by
      unfold csKnown
      exact List.any_eq_true.mpr ⟨d, hdmem, by simp [hdeq, hdcs]⟩
    rw [h1, h2]
    rfl
  rw [List.filter_cons_of_pos hh, List.filter_eq_nil_iff.mpr (fun e he => by rw [ht e he]; simp)]

/-- findHead on any permutation of a chain returns the chain's head. -/
lemma findHead_perm_chain (l : List JournalEntry) (h : JournalEntry) (t : List JournalEntry)
    (hperm : l.Perm (h :: t)) (hprev : h.prevCS = "") (hlinks : ChainFrom h.cs t)
    (hcs : ∀ e ∈ h :: t, e.cs ≠ "") :
    findHead l = .ok h := by
  have hcongr : l.filter (isHeadCand l) = l.filter (isHeadCand (h :: t)) :=
    List.filter_congr (fun e _ => isHeadCand_perm hperm e)
  have hpf : (l.filter (isHeadCand (h :: t))).Perm ((h :: t).filter (isHeadCand (h :: t))) :=
    hperm.filter _
  rw [filter_headCand_chain h t hprev hlinks hcs] at hpf
  unfold findHead
  rw [hcongr, List.perm_singleton.mp hpf]

/-- The chain head's prev_cs is empty: links force every other entry's
prev_cs to a non-empty checksum, and exactly one entry has an empty
one. -/
lemma chain_head_prev_empty (h : JournalEntry) (t : List JournalEntry)
    (hcs : ∀ e ∈ h :: t, e.cs ≠ "") (hlinks : ChainFrom h.cs t)
    (hone : ((h :: t).filter (fun e => e.prevCS == "")).length = 1) :
    h.prevCS = "" := by
  have htf : t.filter (fun e => e.prevCS == "") = [] := by
    rw [List.filter_eq_nil_iff]
    intro e he
    have : e.prevCS ≠ "" := by
      rcases chainFrom_prev_of_mem hlinks e he with h1 | ⟨d, hd, h2⟩
      · rw [h1]
        exact hcs h (List.mem_cons_self h t)
      · rw [h2]
        exact hcs d (List.mem_cons_of_mem h hd)
    simp [this]
  by_contra hne
  rw [List.filter_cons_of_neg (by simp [hne]), htf] at hone
  simp at hone

/-- On any permutation of a chain, the walk from the chain's head visits
exactly the chain in order. -/
lemma chain_pathOk (l : List JournalEntry) (c : List JournalEntry) (hperm : l.Perm c)
    (hch : ChainFrom "" c) (hcs : ∀ e ∈ c, e.cs ≠ "")
    (hnd : (c.map (fun e => e.cs)).Nodup) :
    ∀ before cur rest, c = before ++ cur :: rest → PathOk (bucket l) cur (cur :: rest) := by
  intro before cur rest
  induction rest generalizing before cur with
  | nil =>
    intro hsplit
    have hb : bucket c cur.cs = [] := by
      have := bucket_chain before [] cur (hsplit ▸ hch) (hsplit ▸ hcs) (hsplit ▸ hnd)
      rw [← hsplit] at this
      simpa using this
    have hperm2 : (bucket l cur.cs).Perm (bucket c cur.cs) := hperm.filter _
    rw [hb] at hperm2
    exact PathOk.last cur (hperm2.eq_nil)
  | cons r rt ih =>
    intro hsplit
    have hb : bucket c cur.cs = [r] := by
      have := bucket_chain before (r :: rt) cur (hsplit ▸ hch) (hsplit ▸ hcs) (hsplit ▸ hnd)
      rw [← hsplit] at this
      simpa using this
    have hperm2 : (bucket l cur.cs).Perm (bucket c cur.cs) := hperm.filter _
    rw [hb] at hperm2
    have hnext := ih (before ++ [cur]) r (by rw [hsplit]; simp)
    exact PathOk.step cur r (r :: rt) (List.perm_singleton.mp hperm2) hnext

/-- C2: for every non-empty list of journal entries forming a single
valid chain (pairwise distinct non-empty cs values, exactly one entry
with empty prev_cs, each subsequent entry's prev_cs equal to its
predecessor's cs), Resequence applied to any permutation of the list
succeeds and returns the entries in chain order. -/
theorem resequence_perm_chain (c l : List JournalEntry) (hch : IsChain c)
    (hperm : l.Perm c) : Resequence l = .ok c := by
  obtain ⟨hne, hcs, hnd, hone, hlinks⟩ := hch
  obtain ⟨h, t, rfl⟩ : ∃ h t, c = h :: t := by
    cases c with
    | nil => exact absurd rfl hne
    | cons h t => exact ⟨h, t, rfl⟩
  have hlinks' : ChainFrom h.cs t := hlinks
  have hprev : h.prevCS = "" := chain_head_prev_empty h t hcs hlinks' hone
  have hchain : ChainFrom "" (h :: t) := ⟨hprev, hlinks'⟩
  have hpath : PathOk (bucket l) h (h :: t) :=
    chain_pathOk l (h :: t) hperm hchain hcs hnd [] h t rfl
  have hlen : l.length = t.length + 1 := by
    rw [hperm.length_eq]
    simp
  obtain ⟨x, ls, rfl⟩ : ∃ x ls, l = x :: ls := by
    cases l with
    | nil => simp at hlen
    | cons x ls => exact ⟨x, ls, rfl⟩
  have hfind : findHead (x :: ls) = .ok h :=
    findHead_perm_chain (x :: ls) h t hperm hprev hlinks' hcs
  have hchase : chase (bucket (x :: ls)) ((x :: ls).length + 1) h [] = .ok ([] ++ (h :: t)) :=
    chase_complete hpath ((x :: ls).length + 1) [] (by simp [hlen])
  show (do
    let head ← findHead (x :: ls)
    let ordered ← chase (bucket (x :: ls)) ((x :: ls).length + 1) head []
    if ordered.length ≠ (x :: ls).length then
      Except.error (.incompleteChain ordered.length (x :: ls).length)
    else
      Except.ok ordered) = .ok (h :: t)
  rw [hfind]
  show (do
    let ordered ← chase (bucket (x :: ls)) ((x :: ls).length + 1) h []
    if ordered.length ≠ (x :: ls).length then
      Except.error (.incompleteChain ordered.length (x :: ls).length)
    else
      Except.ok ordered) = .ok (h :: t)
  rw [hchase, except_bind_ok]
  rw [if_neg (by simp [hlen])]
  rfl

/-- Concrete chain entries for the C2 witness. -/
def wE1 : JournalEntry := ⟨"w", 1, "a", "", 0, "create", none⟩

/-- Concrete chain entries for the C2 witness. -/
def wE2 : JournalEntry := ⟨"w", 2, "b", "a", 1, "update", none⟩

/-- Witness for C2: a shuffled two-entry chain resequences to chain
order. -/
theorem resequence_perm_chain_witness :
    IsChain [wE1, wE2] ∧ Resequence [wE2, wE1] = .ok [wE1, wE2] :=
  ⟨by decide,
    resequence_perm_chain [wE1, wE2] [wE2, wE1] (by decide) (List.Perm.swap wE1 wE2 [])⟩

/-- Success discriminator of a resequence result. -/
def isOkRes : Except JErr (List JournalEntry) → Bool
  | .ok _ => true
  | .error _ => false

/-- Fork discriminator of a resequence result. -/
def isForkError : Except JErr (List JournalEntry) → Bool
  | .error (.forkDetected _) => true
  | _ => false

/-- Two entries sharing an empty prev_cs, for the C4 counterexample. -/
def c4Bad : List JournalEntry :=
  [⟨"cfg", 1, "a", "", 0, "create", none⟩, ⟨"cfg", 1, "b", "", 0, "create", none⟩]

/-- Counterexample to C4 as stated: this input holds two distinct
entries with the same (empty) prev_cs, yet Resequence fails with the
multiple-heads error, not with the fork-detected kind. -/
theorem resequence_dup_not_fork :
    Resequence c4Bad = .error .multipleHeads ∧ isForkError (Resequence c4Bad) = false :=
  ⟨rfl, rfl⟩

/-- Reduction of an Except bind on an error value. -/
lemma except_bind_error {α β : Type} (e : JErr) (f : α → Except JErr β) :
    (do
      let x ← (Except.error e : Except JErr α)
      f x) = Except.error e := rfl

/-- findHead errors with multipleHeads as soon as two candidates
exist. -/
lemma findHead_of_two_le (l : List JournalEntry)
    (h : 2 ≤ (l.filter (isHeadCand l)).length) : findHead l = .error .multipleHeads := by
  unfold findHead
  cases hf : l.filter (isHeadCand l) with
  | nil =>
    rw [hf] at h
    simp at h
  | cons a tl =>
    cases tl with
    | nil =>
      rw [hf] at h
      simp at h
    | cons b tl2 => rfl

/-- A findHead error propagates out of Resequence on non-empty input. -/
lemma resequence_findHead_error {l : List JournalEntry} {err : JErr}
    (hne : l ≠ []) (h : findHead l = .error err) : Resequence l = .error err := by
  obtain ⟨a, l', rfl⟩ : ∃ a l', l = a :: l' := by
    cases l with
    | nil => exact absurd rfl hne
    | cons a l' => exact ⟨a, l', rfl⟩
  show (do
    let head ← findHead (a :: l')
    let ordered ← chase (bucket (a :: l')) ((a :: l').length + 1) head []
    if ordered.length ≠ (a :: l').length then
      Except.error (.incompleteChain ordered.length (a :: l').length)
    else
      Except.ok ordered) = .error err
  rw [h, except_bind_error]

/-- A successful findHead pins the candidate filter to a singleton. -/
lemma findHead_ok_filter {l : List JournalEntry} {hd : JournalEntry}
    (h : findHead l = .ok hd) : l.filter (isHeadCand l) = [hd] := by
  unfold findHead at h
  cases hf : l.filter (isHeadCand l) with
  | nil =>
    rw [hf] at h
    cases h
  | cons a tl =>
    cases tl with
    | nil =>
      rw [hf] at h
      cases h
      rfl
    | cons b tl2 =>
      rw [hf] at h
      cases h

/-- Structure of a successful Resequence run: an ok head, a walk whose
path is the output, and the full input length. -/
lemma resequence_ok_parts {l out : List JournalEntry} (hne : l ≠ [])
    (h : Resequence l = .ok out) :
    ∃ hd, findHead l = .ok hd ∧ PathOk (bucket l) hd out ∧ out.length = l.length := by
  obtain ⟨a, l', rfl⟩ : ∃ a l', l = a :: l' := by
    cases l with
    | nil => exact absurd rfl hne
    | cons a l' => exact ⟨a, l', rfl⟩
  have hshow : Resequence (a :: l') = (do
      let head ← findHead (a :: l')
      let ordered ← chase (bucket (a :: l')) ((a :: l').length + 1) head []
      if ordered.length ≠ (a :: l').length then
        Except.error (.incompleteChain ordered.length (a :: l').length)
      else
        Except.ok ordered) := rfl
  rw [hshow] at h
  cases hf : findHead (a :: l') with
  | error e =>
    rw [hf, except_bind_error] at h
    cases h
  | ok hd =>
    rw [hf, except_bind_ok] at h
    cases hc : chase (bucket (a :: l')) ((a :: l').length + 1) hd [] with
    | error e =>
      rw [hc, except_bind_error] at h
      cases h
    | ok out' =>
      rw [hc, except_bind_ok] at h
      rcases chase_sound hc with ⟨path, hout', hpath⟩
      rw [List.nil_append] at hout'
      rw [← hout'] at hpath
      by_cases hlen : out'.length ≠ (a :: l').length
      · rw [if_pos hlen] at h
        cases h
      · rw [if_neg hlen] at h
        push_neg at hlen
        injection h with h2
        subst h2
        exact ⟨hd, rfl, hpath, hlen⟩

/-- C4 amended: an input holding two entries at distinct positions with
the same prev_cs never resequences successfully; and when that shared
prev_cs is empty or matches no input entry's checksum the failure is the
multiple-heads error (rather than fork-detected). -/
theorem resequence_dup_prev_fails (xs ys zs : List JournalEntry) (e1 e2 : JournalEntry)
    (hdup : e1.prevCS = e2.prevCS) :
    isOkRes (Resequence (xs ++ e1 :: ys ++ e2 :: zs)) = false ∧
    ((e1.prevCS = "" ∨ csKnown (xs ++ e1 :: ys ++ e2 :: zs) e1.prevCS = false) →
      Resequence (xs ++ e1 :: ys ++ e2 :: zs) = .error .multipleHeads) := by
  set l := xs ++ e1 :: ys ++ e2 :: zs with hl
  have he1 : e1 ∈ l := by
    rw [hl]
    simp
  have he2 : e2 ∈ l := by
    rw [hl]
    simp
  have hne : l ≠ [] := by
    intro hx
    rw [hx] at he1
    cases he1
  have hcand_eq : isHeadCand l e2 = isHeadCand l e1 := by
    unfold isHeadCand
    rw [hdup]
  have hsublist : [e1, e2].Sublist l := by
    have ha : [e1].Sublist (xs ++ e1 :: ys) :=
      (List.Sublist.cons₂ e1 (List.nil_sublist ys)).trans
        (List.sublist_append_right xs (e1 :: ys))
    have hb : [e2].Sublist (e2 :: zs) := List.Sublist.cons₂ e2 (List.nil_sublist zs)
    have h12 := List.Sublist.append ha hb
    rw [hl]
    exact h12
  have hmany : isHeadCand l e1 = true → 2 ≤ (l.filter (isHeadCand l)).length := by
    intro hc1
    have hc2 : isHeadCand l e2 = true := by
      rw [hcand_eq, hc1]
    have hsl := hsublist.filter (isHeadCand l)
    have hfeq : [e1, e2].filter (isHeadCand l) = [e1, e2] := by
      simp [List.filter_cons, hc1, hc2]
    rw [hfeq] at hsl
    simpa using hsl.length_le
  have hmh : isHeadCand l e1 = true → Resequence l = .error .multipleHeads := by
    intro hc1
    exact resequence_findHead_error hne (findHead_of_two_le l (hmany hc1))
  constructor
  · cases hcase : isHeadCand l e1 with
    | true =>
      rw [hmh hcase]
      rfl
    | false =>
      cases hres : Resequence l with
      | error e => rfl
      | ok out =>
        exfalso
        rcases resequence_ok_parts hne hres with ⟨hd, hfind, hpath, hlen⟩
        have hfilter := findHead_ok_filter hfind
        have hhdcand : isHeadCand l hd = true := by
          have : hd ∈ l.filter (isHeadCand l) := by
            rw [hfilter]
            simp
          exact List.of_mem_filter this
        have hhd_mem : hd ∈ l := by
          have : hd ∈ l.filter (isHeadCand l) := by
            rw [hfilter]
            simp
          exact List.mem_of_mem_filter this
        have he1hd : e1 ≠ hd := by
          intro hx
          rw [hx, hhdcand] at hcase
          cases hcase
        have he2hd : e2 ≠ hd := by
          intro hx
          have : isHeadCand l e2 = false := by
            rw [hcand_eq]
            exact hcase
          rw [hx, hhdcand] at this
          cases this
        have hsub : ∀ e ∈ out, e ∈ l := by
          intro e hmem
          rcases pathOk_mem_step hpath e hmem with rfl | ⟨q, hq⟩
          · exact hhd_mem
          · have : e ∈ bucket l q := by
              rw [hq]
              simp
            exact (mem_bucket.mp this).1
        have hnotpath : e1 ∉ out ∨ e2 ∉ out := by
          by_cases h1 : e1.cs = ""
          · left
            intro hmem
            rcases pathOk_mem_step hpath e1 hmem with hx | ⟨q, hq⟩
            · exact he1hd hx
            · have : e1 ∈ bucket l q := by
                rw [hq]
                simp
              exact (mem_bucket.mp this).2.1 h1
          · by_cases h2 : e2.cs = ""
            · right
              intro hmem
              rcases pathOk_mem_step hpath e2 hmem with hx | ⟨q, hq⟩
              · exact he2hd hx
              · have : e2 ∈ bucket l q := by
                  rw [hq]
                  simp
                exact (mem_bucket.mp this).2.1 h2
            · left
              have hp1 : (e1.cs != "" && e1.prevCS == e1.prevCS) = true := by
                simp [h1]
              have hp2 : (e2.cs != "" && e2.prevCS == e1.prevCS) = true := by
                simp [h2, hdup.symm]
              have hsl2 := hsublist.filter (fun e => e.cs != "" && e.prevCS == e1.prevCS)
              have hfeq2 : [e1, e2].filter (fun e => e.cs != "" && e.prevCS == e1.prevCS) =
                  [e1, e2] := by
                simp [List.filter_cons, h1, h2, hdup.symm]
              rw [hfeq2] at hsl2
              have hbig : 2 ≤ (bucket l e1.prevCS).length := by
                unfold bucket
                simpa using hsl2.length_le
              intro hmem
              rcases pathOk_mem_step hpath e1 hmem with hx | ⟨q, hq⟩
              · exact he1hd hx
              · have hmemb : e1 ∈ bucket l q := by
                  rw [hq]
                  simp
                have hqeq : q = e1.prevCS := ((mem_bucket.mp hmemb).2.2).symm
                have hone : bucket l e1.prevCS = [e1] := by
                  rw [← hqeq]
                  exact hq
                rw [hone] at hbig
                simp at hbig
        rcases hnotpath with hmiss | hmiss
        · have hcons : (e1 :: out).Nodup := List.nodup_cons.mpr ⟨hmiss, pathOk_nodup hpath⟩
          have hsub2 : e1 :: out ⊆ l := by
            intro e hmem
            rcases List.mem_cons.mp hmem with rfl | hmem
            · exact he1
            · exact hsub e hmem
          have := (hcons.subperm hsub2).length_le
          simp only [List.length_cons] at this
          omega
        · have hcons : (e2 :: out).Nodup := List.nodup_cons.mpr ⟨hmiss, pathOk_nodup hpath⟩
          have hsub2 : e2 :: out ⊆ l := by
            intro e hmem
            rcases List.mem_cons.mp hmem with rfl | hmem
            · exact he2
            · exact hsub e hmem
          have := (hcons.subperm hsub2).length_le
          simp only [List.length_cons] at this
          omega
  · intro hc
    apply hmh
    unfold isHeadCand
    rcases hc with hc | hc
    · simp [hc]
    · rw [hc]
      simp

/-- Entry for the C4 amended-claim witness. -/
def c4E1 : JournalEntry := ⟨"c", 1, "a", "x", 0, "op", none⟩

/-- Entry for the C4 amended-claim witness. -/
def c4E2 : JournalEntry := ⟨"c", 2, "b", "x", 0, "op", none⟩

/-- Witness for the C4 amended claim at a concrete two-entry input with
a shared unknown prev_cs. -/
theorem resequence_dup_prev_fails_witness :
    c4E1.prevCS = c4E2.prevCS ∧
      isOkRes (Resequence ([] ++ c4E1 :: [] ++ c4E2 :: [])) = false ∧
      Resequence ([] ++ c4E1 :: [] ++ c4E2 :: []) = .error .multipleHeads :=
  ⟨rfl, (resequence_dup_prev_fails [] [] [] c4E1 c4E2 rfl).1,
    (resequence_dup_prev_fails [] [] [] c4E1 c4E2 rfl).2 (Or.inr rfl)⟩

/-- A successful resequence returns only input entries. -/
lemma resequence_ok_subset {l out : List JournalEntry} (h : Resequence l = .ok out) :
    ∀ e ∈ out, e ∈ l := by
  cases l with
  | nil =>
    cases h
    intro e he
    cases he
  | cons a l' =>
    rcases resequence_ok_parts (by simp) h with ⟨hd, hfind, hpath, _⟩
    have hhd_mem : hd ∈ a :: l' := by
      have : hd ∈ (a :: l').filter (isHeadCand (a :: l')) := by
        rw [findHead_ok_filter hfind]
        simp
      exact List.mem_of_mem_filter this
    intro e he
    rcases pathOk_mem_step hpath e he with rfl | ⟨q, hq⟩
    · exact hhd_mem
    · have : e ∈ bucket (a :: l') q := by
        rw [hq]
        simp
      exact (mem_bucket.mp this).1

/-- Membership in the first-seen id list. -/
lemma uniqueIds_go_mem (l : List JournalEntry) :
    ∀ (acc : List String) (j : String),
      j ∈ l.foldl (fun acc e => if acc.contains e.id then acc else acc ++ [e.id]) acc ↔
        j ∈ acc ∨ ∃ e ∈ l, e.id = j := by
  induction l with
  | nil =>
    intro acc j
    simp
  | cons e t ih =>
    intro acc j
    rw [List.foldl_cons]
    by_cases hc : acc.contains e.id
    · rw [if_pos hc, ih]
      have hmem : e.id ∈ acc := by simpa using hc
      constructor
      · rintro (h | ⟨d, hd, hdj⟩)
        · exact Or.inl h
        · exact Or.inr ⟨d, List.mem_cons_of_mem e hd, hdj⟩
      · rintro (h | ⟨d, hd, hdj⟩)
        · exact Or.inl h
        · rcases List.mem_cons.mp hd with rfl | hd
          · exact Or.inl (hdj ▸ hmem)
          · exact Or.inr ⟨d, hd, hdj⟩
    · rw [if_neg hc, ih]
      constructor
      · rintro (h | ⟨d, hd, hdj⟩)
        · rcases List.mem_append.mp h with h | h
          · exact Or.inl h
          · refine Or.inr ⟨e, List.mem_cons_self e t, ?_⟩
            have : j = e.id := by simpa using h
            exact this.symm
        · exact Or.inr ⟨d, List.mem_cons_of_mem e hd, hdj⟩
      · rintro (h | ⟨d, hd, hdj⟩)
        · exact Or.inl (List.mem_append.mpr (Or.inl h))
        · rcases List.mem_cons.mp hd with rfl | hd
          · exact Or.inl (List.mem_append.mpr (Or.inr (by simp [hdj])))
          · exact Or.inr ⟨d, hd, hdj⟩

/-- The first-seen id list has no duplicates. -/
lemma uniqueIds_go_nodup (l : List JournalEntry) :
    ∀ (acc : List String), acc.Nodup →
      (l.foldl (fun acc e => if acc.contains e.id then acc else acc ++ [e.id]) acc).Nodup := by
  induction l with
  | nil =>
    intro acc h
    simpa using h
  | cons e t ih =>
    intro acc h
    rw [List.foldl_cons]
    by_cases hc : acc.contains e.id
    · rw [if_pos hc]
      exact ih acc h
    · rw [if_neg hc]
      refine ih (acc ++ [e.id]) ?_
      rw [List.nodup_append]
      refine ⟨h, List.nodup_singleton _, ?_⟩
      intro x hx hy
      have hxe : x = e.id := by simpa using hy
      subst hxe
      exact hc (by simpa using hx)

/-- Filtering a flattened per-id grouping to one id keeps exactly that
id's group. -/
lemma filter_flatten_map (ids : List String) (g : String → List JournalEntry)
    (hg : ∀ j, ∀ e ∈ g j, e.id = j) (i : String) (hnd : ids.Nodup) :
    ((ids.map g).flatten.filter (fun e => e.id == i)) = if i ∈ ids then g i else [] := by
  induction ids with
  | nil => simp
  | cons j t ih =>
    rw [List.map_cons, List.flatten_cons, List.filter_append]
    rcases List.nodup_cons.mp hnd with ⟨hj, ht⟩
    by_cases hji : j = i
    · subst hji
      have h1 : (g j).filter (fun e => e.id == j) = g j :=
        List.filter_eq_self.mpr (fun e he => by simp [hg j e he])
      rw [h1, ih ht, if_neg hj, if_pos (List.mem_cons_self j t)]
      simp
    · have h1 : (g j).filter (fun e => e.id == i) = [] := by
        rw [List.filter_eq_nil_iff]
        intro e he
        simp [hg j e he, hji]
      rw [h1, List.nil_append, ih ht]
      by_cases hit : i ∈ t
      · rw [if_pos hit, if_pos (List.mem_cons_of_mem j hit)]
      · have hnotin : i ∉ j :: t := by
          intro hmem
          rcases List.mem_cons.mp hmem with rfl | hmem
          · exact hji rfl
          · exact hit hmem
        rw [if_neg hit, if_neg hnotin]

/-- C7: Compact groups the journal by id and, per id, retains exactly
the last ten entries of the resequenced chain when resequencing
succeeds (all of them when the chain has ten or fewer entries, via the
saturating subtraction in drop), and all of the id's entries verbatim
when it fails; the result is the contents of the one rewritten journal
file.  The statement is per id, the inter-id order of the rewritten
file being unspecified map iteration order in the source. -/
theorem compact_retains_last_ten_per_id (entries : List JournalEntry) (i : String) :
    (Compact entries).filter (fun e => e.id == i) =
      match Resequence (entries.filter (fun e => e.id == i)) with
      | .ok ordered => ordered.drop (ordered.length - 10)
      | .error _ => entries.filter (fun e => e.id == i) := by
  have hg : ∀ j, ∀ e ∈ (fun j =>
      match Resequence (entries.filter (fun e => e.id == j)) with
      | .ok ordered => ordered.drop (ordered.length - 10)
      | .error _ => entries.filter (fun e => e.id == j)) j, e.id = j := by
    intro j e he
    simp only at he
    cases hres : Resequence (entries.filter (fun e => e.id == j)) with
    | ok ordered =>
      rw [hres] at he
      have h1 : e ∈ ordered := List.mem_of_mem_drop he
      have h2 : e ∈ entries.filter (fun e => e.id == j) := resequence_ok_subset hres e h1
      simpa using List.of_mem_filter h2
    | error err =>
      rw [hres] at he
      simpa using List.of_mem_filter he
  have hmain := filter_flatten_map (uniqueIds entries)
    (fun j =>
      match Resequence (entries.filter (fun e => e.id == j)) with
      | .ok ordered => ordered.drop (ordered.length - 10)
      | .error _ => entries.filter (fun e => e.id == j))
    hg i (uniqueIds_go_nodup entries [] List.nodup_nil)
  have hcompact : Compact entries = ((uniqueIds entries).map (fun j =>
      match Resequence (entries.filter (fun e => e.id == j)) with
      | .ok ordered => ordered.drop (ordered.length - 10)
      | .error _ => entries.filter (fun e => e.id == j))).flatten := rfl
  rw [hcompact, hmain]
  by_cases hmem : i ∈ uniqueIds entries
  · rw [if_pos hmem]
  · rw [if_neg hmem]
    have hempty : entries.filter (fun e => e.id == i) = [] := by
      rw [List.filter_eq_nil_iff]
      intro e he
      intro hbeq
      exact hmem ((uniqueIds_go_mem entries [] i).mpr
        (Or.inr ⟨e, he, by simpa using hbeq⟩))
    rw [hempty]
    rfl

/-- Toy line parser for the C9 theorems: accepts the literal text ok,
nothing else.  Like json.Unmarshal, it is a function of the line's
contents alone. -/
def parseToy (line : String) : Option JournalEntry :=
  if line = "ok" then some ⟨"x", 1, "a", "", 0, "op", none⟩ else none

/-- Counterexample to C9 as stated: the same offending line at line 1
of one journal and at line 3 of another produces the identical error,
so the error cannot carry the line number of the offending line (the
source wraps only the parser's own error). -/
theorem readAll_error_no_line_number :
    ReadAll parseToy ["BAD"] = .error (.corruptEntry "BAD") ∧
      ReadAll parseToy ["ok", "ok", "BAD"] = ReadAll parseToy ["BAD"] :=
  ⟨rfl, rfl⟩

/-- C9 amended: when some non-empty line fails to parse, ReadAll
returns no entries and fails with a corrupt-entry error derived from an
offending line's contents (no line number); when every non-empty line
parses, ReadAll returns the entries in file order with empty lines
skipped. -/
theorem readAll_first_bad_or_all (parse : String → Option JournalEntry)
    (lines : List String) :
    ((∃ l ∈ lines, l ≠ "" ∧ parse l = none) →
      ∃ bad, bad ∈ lines ∧ bad ≠ "" ∧ parse bad = none ∧
        ReadAll parse lines = .error (.corruptEntry bad)) ∧
    ((∀ l ∈ lines, l ≠ "" → (parse l).isSome) →
      ReadAll parse lines = .ok (lines.filterMap (fun l => if l = "" then none else parse l))) := by
  induction lines with
  | nil =>
    constructor
    · rintro ⟨l, hl, _⟩
      cases hl
    · intro _
      rfl
  | cons line rest ih =>
    constructor
    · rintro ⟨l, hl, hlne, hlparse⟩
      by_cases hline : line = ""
      · have hmem : l ∈ rest := by
          rcases List.mem_cons.mp hl with rfl | h
          · exact absurd hline hlne
          · exact h
        rcases ih.1 ⟨l, hmem, hlne, hlparse⟩ with ⟨bad, hb1, hb2, hb3, hb4⟩
        refine ⟨bad, List.mem_cons_of_mem line hb1, hb2, hb3, ?_⟩
        show ReadAll parse (line :: rest) = Except.error (.corruptEntry bad)
        unfold ReadAll
        rw [if_pos hline]
        exact hb4
      · cases hp : parse line with
        | none =>
          refine ⟨line, List.mem_cons_self line rest, hline, hp, ?_⟩
          unfold ReadAll
          rw [if_neg hline, hp]
        | some e =>
          have hmem : l ∈ rest := by
            rcases List.mem_cons.mp hl with rfl | h
            · rw [hp] at hlparse
              cases hlparse
            · exact h
          rcases ih.1 ⟨l, hmem, hlne, hlparse⟩ with ⟨bad, hb1, hb2, hb3, hb4⟩
          refine ⟨bad, List.mem_cons_of_mem line hb1, hb2, hb3, ?_⟩
          unfold ReadAll
          rw [if_neg hline, hp, hb4]
          rfl
    · intro hall
      by_cases hline : line = ""
      · unfold ReadAll
        rw [if_pos hline]
        rw [ih.2 (fun l hl => hall l (List.mem_cons_of_mem line hl))]
        have hfm : (line :: rest).filterMap (fun l => if l = "" then none else parse l) =
            rest.filterMap (fun l => if l = "" then none else parse l) := by
          rw [List.filterMap_cons]
          simp [hline]
        rw [hfm]
      · cases hp : parse line with
        | none =>
          have := hall line (List.mem_cons_self line rest) hline
          rw [hp] at this
          cases this
        | some e =>
          unfold ReadAll
          rw [if_neg hline, hp]
          rw [ih.2 (fun l hl => hall l (List.mem_cons_of_mem line hl))]
          have hfm : (line :: rest).filterMap (fun l => if l = "" then none else parse l) =
              e :: rest.filterMap (fun l => if l = "" then none else parse l) := by
            rw [List.filterMap_cons]
            simp [hline, hp]
          rw [hfm]
          rfl

/-- Witness for the C9 amended claim on concrete journals. -/
theorem readAll_first_bad_or_all_witness :
    (∃ l ∈ (["ok", "", "BAD"] : List String), l ≠ "" ∧ parseToy l = none) ∧
    (∃ bad, bad ∈ (["ok", "", "BAD"] : List String) ∧ bad ≠ "" ∧ parseToy bad = none ∧
      ReadAll parseToy ["ok", "", "BAD"] = .error (.corruptEntry bad)) ∧
    (∀ l ∈ (["ok", ""] : List String), l ≠ "" → (parseToy l).isSome) ∧
    ReadAll parseToy ["ok", ""] =
      .ok ((["ok", ""] : List String).filterMap (fun l => if l = "" then none else parseToy l)) := by
  have hA : ∃ l ∈ (["ok", "", "BAD"] : List String), l ≠ "" ∧ parseToy l = none :=
    ⟨"BAD", by simp, by simp, rfl⟩
  have hB : ∀ l ∈ (["ok", ""] : List String), l ≠ "" → (parseToy l).isSome := by
    intro l hl hne
    rcases List.mem_cons.mp hl with rfl | hl
    · rfl
    · rcases List.mem_cons.mp hl with rfl | hl
      · exact absurd rfl hne
      · cases hl
  exact ⟨hA, (readAll_first_bad_or_all parseToy ["ok", "", "BAD"]).1 hA, hB,
    (readAll_first_bad_or_all parseToy ["ok", ""]).2 hB⟩

/-- C8 evaluated at failing inputs: FileStorage.Write with a traversal
path writes outside the configured root and reports no error, and
FileStorage.Delete likewise removes a file outside the root; only Read
validates, and even its string-prefix check accepts a sibling directory
whose name extends the root.  The code contradicts the traversal
defense its own Read comment declares. -/
theorem fileStorage_traversal_unchecked :
    fsWrite "/tmp/root" [] "../escape" "data" = [("/tmp/escape", "data")] ∧
    strStarts "/tmp/escape" "/tmp/root" = false ∧
    fsRead "/tmp/root" [] "../escape" = .error .invalidPath ∧
    fsDelete "/tmp/root" [("/tmp/escape", "data")] "../escape" = [] ∧
    joinPath "/tmp/root" "../root2/x" = "/tmp/root2/x" ∧
    strStarts "/tmp/root2/x" "/tmp/root" = true := by
  refine ⟨?_, ?_, ?_, ?_, ?_, ?_⟩ <;> rfl

/-- The final config of a run of updates from a current config (the
last element the scanl of pipelineCfgs produces). -/
def foldCfgs (cur : Config) (ups : List (Json × Int)) : Config :=
  ups.foldl (fun prev u => Config.UpdateMeta ⟨prev.meta, u.1⟩ u.2) cur

/-- The journal entries a run of updates appends after the current
config. -/
def updEntries (id : String) (cur : Config) : List (Json × Int) → List JournalEntry
  | [] => []
  | u :: rest =>
    let c := Config.UpdateMeta ⟨cur.meta, u.1⟩ u.2
    mkEntry id "update" c :: updEntries id c rest

/-- A hex word prints eight characters. -/
lemma hexWord_length (n : Nat) : (hexWord n).length = 8 := by
  unfold hexWord
  simp [String.length]

/-- A SHA-256 hex digest always has sixty-four characters. -/
lemma sha256Hex_length (m : List Nat) : (sha256Hex m).length = 64 := by
  unfold sha256Hex
  simp only [String.length_append, hexWord_length]

/-- A SHA-256 hex digest is never the empty string. -/
lemma sha256Hex_ne_empty (m : List Nat) : sha256Hex m ≠ "" := by
  intro h
  have := congrArg String.length h
  rw [sha256Hex_length] at this
  simp [String.length] at this

/-- The checksum an UpdateMeta output stores is a digest, hence
sixty-four characters long. -/
lemma updateMeta_cs_length (c : Config) (now : Int) :
    (c.UpdateMeta now).meta.cs.length = 64 :=
  sha256Hex_length _

/-- The checksum an UpdateMeta output stores is never empty. -/
lemma updateMeta_cs_ne_empty (c : Config) (now : Int) :
    (c.UpdateMeta now).meta.cs ≠ "" := by
  intro h
  have := congrArg String.length h
  rw [updateMeta_cs_length] at this
  simp [String.length] at this

/-- Cache lookup after insertion at the same id. -/
lemma cacheFind_insert (c : List (String × Config)) (id : String) (cfg : Config) :
    cacheFind (cacheInsert c id cfg) id = some cfg := by
  unfold cacheFind cacheInsert
  simp [List.find?]

/-- Every appended update entry has the writing id. -/
lemma updEntries_id (id : String) :
    ∀ (ups : List (Json × Int)) (cur : Config), ∀ e ∈ updEntries id cur ups, e.id = id := by
  intro ups
  induction ups with
  | nil =>
    intro cur e he
    cases he
  | cons u rest ih =>
    intro cur e he
    rcases List.mem_cons.mp he with rfl | he
    · rfl
    · exact ih _ e he

/-- The appended update entries link from the current checksum. -/
lemma updEntries_chainFrom (id : String) :
    ∀ (ups : List (Json × Int)) (cur : Config),
      ChainFrom cur.meta.cs (updEntries id cur ups) := by
  intro ups
  induction ups with
  | nil =>
    intro cur
    trivial
  | cons u rest ih =>
    intro cur
    exact ⟨rfl, ih (Config.UpdateMeta ⟨cur.meta, u.1⟩ u.2)⟩

/-- Every appended update entry carries a non-empty prev_cs when the
current checksum is non-empty, since each later one links from a
digest. -/
lemma updEntries_prev_ne (id : String) :
    ∀ (ups : List (Json × Int)) (cur : Config), cur.meta.cs ≠ "" →
      ∀ e ∈ updEntries id cur ups, e.prevCS ≠ "" := by
  intro ups
  induction ups with
  | nil =>
    intro cur _ e he
    cases he
  | cons u rest ih =>
    intro cur hcs e he
    rcases List.mem_cons.mp he with rfl | he
    · exact hcs
    · exact ih (Config.UpdateMeta ⟨cur.meta, u.1⟩ u.2) (updateMeta_cs_ne_empty _ _) e he

/-- Every appended update entry carries a digest checksum. -/
lemma updEntries_cs_ne (id : String) :
    ∀ (ups : List (Json × Int)) (cur : Config), ∀ e ∈ updEntries id cur ups, e.cs ≠ "" := by
  intro ups
  induction ups with
  | nil =>
    intro cur e he
    cases he
  | cons u rest ih =>
    intro cur e he
    rcases List.mem_cons.mp he with rfl | he
    · exact updateMeta_cs_ne_empty _ _
    · exact ih _ e he

/-- The checksums of the appended update entries are the checksums of
the scanned configs after the current one. -/
lemma updEntries_cs_map (id : String) :
    ∀ (ups : List (Json × Int)) (cur : Config),
      cur.meta.cs :: (updEntries id cur ups).map (fun e => e.cs) =
        (ups.scanl (fun prev u => Config.UpdateMeta ⟨prev.meta, u.1⟩ u.2) cur).map
          (fun c => c.meta.cs) := by
  intro ups
  induction ups with
  | nil =>
    intro cur
    simp [updEntries, List.scanl]
  | cons u rest ih =>
    intro cur
    simp only [updEntries, mkEntry, List.map_cons]
    rw [List.scanl_cons]
    simp only [List.singleton_append, List.map_cons]
    exact congrArg (cur.meta.cs :: ·) (ih (Config.UpdateMeta ⟨cur.meta, u.1⟩ u.2))

/-- The last entry of the chain built from a starting entry embedding
the current config and the appended update entries embeds the final
config. -/
lemma updEntries_getLast (id : String) :
    ∀ (ups : List (Json × Int)) (cur : Config) (e : JournalEntry), e.config = some cur →
      ∃ lastE, (e :: updEntries id cur ups).getLast? = some lastE ∧
        lastE.config = some (foldCfgs cur ups) := by
  intro ups
  induction ups with
  | nil =>
    intro cur e hcfg
    exact ⟨e, rfl, hcfg⟩
  | cons u rest ih =>
    intro cur e hcfg
    have hstep := ih (Config.UpdateMeta ⟨cur.meta, u.1⟩ u.2)
      (mkEntry id "update" (Config.UpdateMeta ⟨cur.meta, u.1⟩ u.2)) rfl
    rcases hstep with ⟨lastE, hg, hc⟩
    refine ⟨lastE, ?_, hc⟩
    rw [show (e :: updEntries id cur (u :: rest)) =
      e :: mkEntry id "update" (Config.UpdateMeta ⟨cur.meta, u.1⟩ u.2) ::
        updEntries id (Config.UpdateMeta ⟨cur.meta, u.1⟩ u.2) rest from rfl]
    rw [List.getLast?_cons_cons]
    exact hg

/-- The final config's version advances by one per update. -/
lemma foldCfgs_version :
    ∀ (ups : List (Json × Int)) (cur : Config),
      (foldCfgs cur ups).meta.version = cur.meta.version + ups.length := by
  intro ups
  induction ups with
  | nil =>
    intro cur
    rfl
  | cons u rest ih =>
    intro cur
    show (foldCfgs (Config.UpdateMeta ⟨cur.meta, u.1⟩ u.2) rest).meta.version = _
    rw [ih]
    show (Config.UpdateMeta ⟨cur.meta, u.1⟩ u.2).meta.version + rest.length = _
    show cur.meta.version + 1 + rest.length = cur.meta.version + (u :: rest).length
    simp
    omega

/-- One update step through the Manager under a cache hit. -/
lemma mUpdate_cache_hit (st : MState) (id : String) (cur : Config) (content : Json)
    (now : Int) (hcache : cacheFind st.cache id = some cur) :
    mUpdate st id content now =
      .ok (commit st id "update" (Config.UpdateMeta ⟨cur.meta, content⟩ now),
        Config.UpdateMeta ⟨cur.meta, content⟩ now) := by
  unfold mUpdate getLatestM
  rw [hcache]

/-- A run of updates through the Manager from a cached current config
always succeeds, appends exactly the update entries, and finishes with
the final config cached. -/
lemma run_fold (id : String) :
    ∀ (ups : List (Json × Int)) (st0 : MState) (cur : Config),
      cacheFind st0.cache id = some cur →
      ∃ stF, ups.foldlM (fun acc u => mUpdate acc.1 id u.1 u.2) (st0, cur) =
          .ok (stF, foldCfgs cur ups) ∧
        stF.journal = st0.journal ++ updEntries id cur ups ∧
        cacheFind stF.cache id = some (foldCfgs cur ups) := by
  intro ups
  induction ups with
  | nil =>
    intro st0 cur hcache
    exact ⟨st0, rfl, by simp [updEntries], hcache⟩
  | cons u rest ih =>
    intro st0 cur hcache
    rcases ih (commit st0 id "update" (Config.UpdateMeta ⟨cur.meta, u.1⟩ u.2))
      (Config.UpdateMeta ⟨cur.meta, u.1⟩ u.2) (cacheFind_insert _ _ _) with ⟨stF, hrun, hj, hc⟩
    refine ⟨stF, ?_, ?_, ?_⟩
    · rw [List.foldlM_cons, mUpdate_cache_hit st0 id cur u.1 u.2 hcache, except_bind_ok]
      exact hrun
    · rw [hj]
      show st0.journal ++ [mkEntry id "update" (Config.UpdateMeta ⟨cur.meta, u.1⟩ u.2)] ++
          updEntries id (Config.UpdateMeta ⟨cur.meta, u.1⟩ u.2) rest = _
      rw [List.append_assoc]
      rfl
    · exact hc

/-- The chain validation loop accepts the appended update entries when
the update clock readings never go backwards. -/
lemma validateChainAux_updEntries (id : String) :
    ∀ (ups : List (Json × Int)) (cur : Config) (i : Nat) (prevE : JournalEntry),
      prevE.cs = cur.meta.cs → prevE.version = cur.meta.version →
      prevE.time = cur.meta.time →
      (cur.meta.time :: ups.map (fun u => u.2)).Chain' (fun a b => a ≤ b) →
      validateChainAux i prevE (updEntries id cur ups) = .ok () := by
  intro ups
  induction ups with
  | nil =>
    intro cur i prevE _ _ _ _
    rfl
  | cons u rest ih =>
    intro cur i prevE hcs hv ht hchain
    rcases List.chain'_cons.mp hchain with ⟨hle, htail⟩
    show (do
      entryConfigOk i (mkEntry id "update" (Config.UpdateMeta ⟨cur.meta, u.1⟩ u.2))
      adjacentOk i prevE (mkEntry id "update" (Config.UpdateMeta ⟨cur.meta, u.1⟩ u.2))
      validateChainAux (i + 1)
        (mkEntry id "update" (Config.UpdateMeta ⟨cur.meta, u.1⟩ u.2))
        (updEntries id (Config.UpdateMeta ⟨cur.meta, u.1⟩ u.2) rest)) = .ok ()
    have h1 : entryConfigOk i
        (mkEntry id "update" (Config.UpdateMeta ⟨cur.meta, u.1⟩ u.2)) = .ok () := by
      unfold entryConfigOk mkEntry
      simp [validate_updateMeta]
    have h2 : adjacentOk i prevE
        (mkEntry id "update" (Config.UpdateMeta ⟨cur.meta, u.1⟩ u.2)) = .ok () := by
      unfold adjacentOk mkEntry
      have e1 : (Config.UpdateMeta ⟨cur.meta, u.1⟩ u.2).meta.prevCS = cur.meta.cs := rfl
      have e2 : (Config.UpdateMeta ⟨cur.meta, u.1⟩ u.2).meta.version =
        cur.meta.version + 1 := rfl
      have e3 : (Config.UpdateMeta ⟨cur.meta, u.1⟩ u.2).meta.time = u.2 := rfl
      rw [e1, e2, e3, hcs, hv, ht]
      simp [not_lt.mpr hle]
    rw [h1, except_bind_ok, h2, except_bind_ok]
    exact ih (Config.UpdateMeta ⟨cur.meta, u.1⟩ u.2) (i + 1) _ rfl rfl rfl (by exact htail)

/-- ValidateChain accepts the chain one create and a run of updates
produce. -/
lemma validateChain_pipeline (id : String) (cfg1 : Config) (ups : List (Json × Int))
    (hv1 : cfg1.Validate = .ok ())
    (ht : (cfg1.meta.time :: ups.map (fun u => u.2)).Chain' (fun a b => a ≤ b)) :
    ValidateChain (mkEntry id "create" cfg1 :: updEntries id cfg1 ups) = .ok () := by
  show (do
    entryConfigOk 0 (mkEntry id "create" cfg1)
    validateChainAux 1 (mkEntry id "create" cfg1) (updEntries id cfg1 ups)) = .ok ()
  have h1 : entryConfigOk 0 (mkEntry id "create" cfg1) = .ok () := by
    unfold entryConfigOk mkEntry
    simp [hv1]
  rw [h1, except_bind_ok]
  exact validateChainAux_updEntries id ups cfg1 1 _ rfl rfl rfl ht

/-- The chain one create and a run of updates produce satisfies the
resequencer's single-valid-chain shape, given distinct checksums. -/
lemma isChain_pipeline (id : String) (cfg1 : Config) (ups : List (Json × Int))
    (hprev1 : cfg1.meta.prevCS = "") (hcs1 : cfg1.meta.cs ≠ "")
    (hnd : (cfg1.meta.cs :: (updEntries id cfg1 ups).map (fun e => e.cs)).Nodup) :
    IsChain (mkEntry id "create" cfg1 :: updEntries id cfg1 ups) := by
  refine ⟨by simp, ?_, ?_, ?_, ?_⟩
  · intro e he
    rcases List.mem_cons.mp he with rfl | he
    · exact hcs1
    · exact updEntries_cs_ne id ups cfg1 e he
  · rw [List.map_cons]
    exact hnd
  · have hrest : (updEntries id cfg1 ups).filter (fun e => e.prevCS == "") = [] := by
      rw [List.filter_eq_nil_iff]
      intro e he
      simp [updEntries_prev_ne id ups cfg1 hcs1 e he]
    rw [List.filter_cons_of_pos (by simp [mkEntry, hprev1]), hrest]
    rfl
  · show ChainFrom (mkEntry id "create" cfg1).cs (updEntries id cfg1 ups)
    exact updEntries_chainFrom id ups cfg1

/-- C5: Reconstruct falls through to the snapshot store's latest when
the journal has no entries for the id; with entries it resequences,
validates, and returns the tail entry's embedded config, loading the
snapshot of the tail version when none is embedded; and after one
create followed by n updates from fresh storage, Reconstruct returns
the final config, whose version is n plus one (under non-decreasing
clock readings and collision-free checksums, which SHA-256 provides in
the source). -/
theorem reconstruct_spec :
    (∀ (journal : List JournalEntry) (snaps : SnapStore) (id : String),
      FindByID journal id = [] → ReconstructJ journal snaps id = loadLatest snaps id) ∧
    (∀ (journal : List JournalEntry) (snaps : SnapStore) (id : String)
        (e : JournalEntry) (rest ordered : List JournalEntry) (lastE : JournalEntry),
      FindByID journal id = e :: rest →
      Resequence (e :: rest) = .ok ordered →
      ValidateChain ordered = .ok () →
      ordered.getLast? = some lastE →
      ReconstructJ journal snaps id =
        match lastE.config with
        | some c => .ok c
        | none => snapLoad snaps id lastE.version) ∧
    (∀ (id : String) (c0 : Json) (t0 : Int) (ups : List (Json × Int)),
      (t0 :: ups.map (fun u => u.2)).Chain' (fun a b => a ≤ b) →
      ((pipelineCfgs c0 t0 ups).map (fun c => c.meta.cs)).Nodup →
      match runPipeline id c0 t0 ups with
      | .error _ => False
      | .ok (stF, cfgF) =>
          ReconstructJ stF.journal stF.snaps id = .ok cfgF ∧
          cfgF.meta.version = ups.length + 1) := by
  refine ⟨?_, ?_, ?_⟩
  · intro journal snaps id h
    unfold ReconstructJ
    rw [h]
  · intro journal snaps id e rest ordered lastE hfind hres hvalid hlast
    unfold ReconstructJ
    rw [hfind]
    simp only [hres, hvalid, hlast]
  · intro id c0 t0 ups ht hnd
    have hrfl : runPipeline id c0 t0 ups =
        ups.foldlM (fun acc u => mUpdate acc.1 id u.1 u.2)
          (commit emptyState id "create" (Config.UpdateMeta ⟨metaZero, c0⟩ t0),
            Config.UpdateMeta ⟨metaZero, c0⟩ t0) := rfl
    rcases run_fold id ups (commit emptyState id "create"
        (Config.UpdateMeta ⟨metaZero, c0⟩ t0)) (Config.UpdateMeta ⟨metaZero, c0⟩ t0)
        (cacheFind_insert _ _ _) with ⟨stF, hrun, hj, _⟩
    rw [hrfl, hrun]
    have hjournal : stF.journal =
        mkEntry id "create" (Config.UpdateMeta ⟨metaZero, c0⟩ t0) ::
          updEntries id (Config.UpdateMeta ⟨metaZero, c0⟩ t0) ups := by
      rw [hj]
      rfl
    have hfb : FindByID stF.journal id =
        mkEntry id "create" (Config.UpdateMeta ⟨metaZero, c0⟩ t0) ::
          updEntries id (Config.UpdateMeta ⟨metaZero, c0⟩ t0) ups := by
      rw [hjournal]
      unfold FindByID
      rw [List.filter_eq_self]
      intro e he
      rcases List.mem_cons.mp he with rfl | he
      · simp [mkEntry]
      · simp [updEntries_id id ups _ e he]
    have hnd2 : ((Config.UpdateMeta ⟨metaZero, c0⟩ t0).meta.cs ::
        (updEntries id (Config.UpdateMeta ⟨metaZero, c0⟩ t0) ups).map (fun e => e.cs)).Nodup := by
      rw [updEntries_cs_map id ups (Config.UpdateMeta ⟨metaZero, c0⟩ t0)]
      exact hnd
    have hchain : IsChain (mkEntry id "create" (Config.UpdateMeta ⟨metaZero, c0⟩ t0) ::
        updEntries id (Config.UpdateMeta ⟨metaZero, c0⟩ t0) ups) :=
      isChain_pipeline id _ ups rfl (updateMeta_cs_ne_empty _ _) hnd2
    have hres : Resequence (mkEntry id "create" (Config.UpdateMeta ⟨metaZero, c0⟩ t0) ::
        updEntries id (Config.UpdateMeta ⟨metaZero, c0⟩ t0) ups) = .ok _ :=
      resequence_perm_chain _ _ hchain (List.Perm.refl _)
    have hvc : ValidateChain (mkEntry id "create" (Config.UpdateMeta ⟨metaZero, c0⟩ t0) ::
        updEntries id (Config.UpdateMeta ⟨metaZero, c0⟩ t0) ups) = .ok () :=
      validateChain_pipeline id _ ups (validate_updateMeta _ _) ht
    rcases updEntries_getLast id ups (Config.UpdateMeta ⟨metaZero, c0⟩ t0)
      (mkEntry id "create" (Config.UpdateMeta ⟨metaZero, c0⟩ t0)) rfl with ⟨lastE, hg, hcfg⟩
    constructor
    · unfold ReconstructJ
      rw [hfb]
      simp only [hres, hvc, hg, hcfg]
    · rw [show foldCfgs (Config.UpdateMeta ⟨metaZero, c0⟩ t0) ups =
        foldCfgs (Config.UpdateMeta ⟨metaZero, c0⟩ t0) ups from rfl]
      rw [foldCfgs_version]
      show (Config.UpdateMeta ⟨metaZero, c0⟩ t0).meta.version + ups.length = ups.length + 1
      show metaZero.version + 1 + ups.length = ups.length + 1
      show 0 + 1 + ups.length = ups.length + 1
      omega

/-- Witness for C5 at a concrete create with no further updates. -/
theorem reconstruct_spec_witness :
    (((0 : Int) :: ([] : List (Json × Int)).map (fun u => u.2)).Chain' (fun a b => a ≤ b)) ∧
    (((pipelineCfgs Json.null 0 []).map (fun c => c.meta.cs)).Nodup) ∧
    (match runPipeline "w5" Json.null 0 [] with
      | .error _ => False
      | .ok (stF, cfgF) =>
          ReconstructJ stF.journal stF.snaps "w5" = .ok cfgF ∧
          cfgF.meta.version = ([] : List (Json × Int)).length + 1) := by
  have h1 : ((0 : Int) :: ([] : List (Json × Int)).map (fun u => u.2)).Chain'
      (fun a b => a ≤ b) := by simp
  have h2 : ((pipelineCfgs Json.null 0 []).map (fun c => c.meta.cs)).Nodup := by
    unfold pipelineCfgs
    simp [List.scanl]
  exact ⟨h1, h2, reconstruct_spec.2.2 "w5" Json.null 0 [] h1 h2⟩

/-- The end checksum of a chain is its last entry's checksum. -/
lemma endCs_getLast :
    ∀ (t : List JournalEntry) (h lastE : JournalEntry),
      (h :: t).getLast? = some lastE → endCs h.cs t = lastE.cs := by
  intro t
  induction t with
  | nil =>
    intro h lastE hg
    cases hg
    rfl
  | cons y ys ih =>
    intro h lastE hg
    rw [List.getLast?_cons_cons] at hg
    rw [endCs_cons]
    exact ih y lastE hg

/-- The last element with a default steps over a cons. -/
lemma getLastD_cons :
    ∀ (xs : List JournalEntry) (x d : JournalEntry),
      ((x :: xs).getLast?).getD d = (xs.getLast?).getD x := by
  intro xs
  induction xs with
  | nil =>
    intro x d
    rfl
  | cons y ys _ =>
    intro x d
    rw [List.getLast?_cons_cons]
    cases hg : (y :: ys).getLast? with
    | none => exact absurd (List.getLast?_eq_none_iff.mp hg) (by simp)
    | some a => rfl

/-- Components of one accepted chain-validation step. -/
lemma validateChainAux_cons_parts {i : Nat} {prevE x : JournalEntry}
    {xs : List JournalEntry} (h : validateChainAux i prevE (x :: xs) = .ok ()) :
    entryConfigOk i x = .ok () ∧ adjacentOk i prevE x = .ok () ∧
      validateChainAux (i + 1) x xs = .ok () := by
  have h' : (do
    entryConfigOk i x
    adjacentOk i prevE x
    validateChainAux (i + 1) x xs) = Except.ok () := h
  cases hE : entryConfigOk i x with
  | error err =>
    rw [hE, except_bind_error] at h'
    cases h'
  | ok u =>
    cases u
    rw [hE, except_bind_ok] at h'
    cases hA : adjacentOk i prevE x with
    | error err =>
      rw [hA, except_bind_error] at h'
      cases h'
    | ok u2 =>
      cases u2
      rw [hA, except_bind_ok] at h'
      exact ⟨rfl, rfl, h'⟩

/-- Components of an accepted chain validation. -/
lemma validateChain_cons_parts {x : JournalEntry} {xs : List JournalEntry}
    (h : ValidateChain (x :: xs) = .ok ()) :
    entryConfigOk 0 x = .ok () ∧ validateChainAux 1 x xs = .ok () := by
  have h' : (do
    entryConfigOk 0 x
    validateChainAux 1 x xs) = Except.ok () := h
  cases hE : entryConfigOk 0 x with
  | error err =>
    rw [hE, except_bind_error] at h'
    cases h'
  | ok u =>
    cases u
    rw [hE, except_bind_ok] at h'
    exact ⟨rfl, h'⟩

/-- Appending one entry that checks out against the last entry keeps
the chain-validation loop accepting. -/
lemma validateChainAux_append :
    ∀ (xs : List JournalEntry) (i : Nat) (prevE e : JournalEntry),
      validateChainAux i prevE xs = .ok () →
      entryConfigOk (i + xs.length) e = .ok () →
      adjacentOk (i + xs.length) ((xs.getLast?).getD prevE) e = .ok () →
      validateChainAux i prevE (xs ++ [e]) = .ok () := by
  intro xs
  induction xs with
  | nil =>
    intro i prevE e _ hcfg hadj
    rw [List.length_nil, Nat.add_zero] at hcfg hadj
    have hadj' : adjacentOk i prevE e = .ok () := hadj
    show (do
      entryConfigOk i e
      adjacentOk i prevE e
      validateChainAux (i + 1) e []) = .ok ()
    rw [hcfg, except_bind_ok, hadj', except_bind_ok]
    rfl
  | cons x xs' ih =>
    intro i prevE e haux hcfg hadj
    rcases validateChainAux_cons_parts haux with ⟨hE, hA, hrest⟩
    show (do
      entryConfigOk i x
      adjacentOk i prevE x
      validateChainAux (i + 1) x (xs' ++ [e])) = .ok ()
    rw [hE, except_bind_ok, hA, except_bind_ok]
    have hlen : i + (x :: xs').length = (i + 1) + xs'.length := by
      simp
      omega
    rw [hlen] at hcfg hadj
    rw [getLastD_cons xs' x prevE] at hadj
    exact ih (i + 1) x e hrest hcfg hadj

/-- Finding over a filter that keeps every match. -/
lemma find?_filter_of_imp {α : Type} (p q : α → Bool) (l : List α)
    (h : ∀ x, p x = true → q x = true) :
    (l.filter q).find? p = l.find? p := by
  induction l with
  | nil => rfl
  | cons x t ih =>
    cases hq : q x with
    | true =>
      rw [List.filter_cons_of_pos hq]
      cases hp : p x with
      | true =>
        rw [List.find?_cons_of_pos _ hp, List.find?_cons_of_pos _ hp]
      | false =>
        rw [List.find?_cons_of_neg _ (by simp [hp]), List.find?_cons_of_neg _ (by simp [hp]),
          ih]
    | false =>
      rw [List.filter_cons_of_neg (by simp [hq])]
      have hp : p x = false := by
        cases hp : p x with
        | true => exact absurd (h x hp) (by simp [hq])
        | false => rfl
      rw [List.find?_cons_of_neg _ (by simp [hp]), ih]

/-- C6: given an id whose snapshot at the target version loads, whose
latest config the Manager resolves, and whose journal chain for the id
is a valid chain ending at that latest config, Rollback produces a new
config whose version is the latest version plus one and whose content
is the target snapshot's content, appends a journal entry whose
operation is rollback_to_v followed by the target version, and leaves a
state whose chain for the id still validates while no other snapshot
key changes (the freshness hypothesis is checksum collision freedom,
which SHA-256 provides in the source; the clock must not run
backwards). -/
theorem rollback_spec (st : MState) (id : String) (targetV : Nat) (now : Int)
    (target latest : Config) (st1 : MState) (c : List JournalEntry)
    (lastE : JournalEntry)
    (htarget : snapLoad st.snaps id targetV = .ok target)
    (hlatest : getLatestM st id = .ok (latest, st1))
    (hjournal : FindByID st1.journal id = c)
    (hchain : IsChain c)
    (hvalid : ValidateChain c = .ok ())
    (hlast : c.getLast? = some lastE)
    (hlcs : lastE.cs = latest.meta.cs)
    (hlv : lastE.version = latest.meta.version)
    (hlt : lastE.time ≤ now)
    (hfresh : (Config.UpdateMeta ⟨latest.meta, target.content⟩ now).meta.cs ∉
      c.map (fun e => e.cs)) :
    match mRollback st id targetV now with
    | .error _ => False
    | .ok (st2, newCfg) =>
        newCfg.meta.version = latest.meta.version + 1 ∧
        newCfg.content = target.content ∧
        st2.journal = st1.journal ++
          [mkEntry id ("rollback_to_v" ++ toString targetV) newCfg] ∧
        mValidateChain st2 id = .ok () ∧
        (∀ v, v ≠ newCfg.meta.version → snapFind st2.snaps id v = snapFind st1.snaps id v) ∧
        (∀ j v, j ≠ id → snapFind st2.snaps j v = snapFind st1.snaps j v) := by
  obtain ⟨h, t, rfl⟩ : ∃ h t, c = h :: t := by
    rcases hchain with ⟨hne, _⟩
    cases c with
    | nil => exact absurd rfl hne
    | cons h t => exact ⟨h, t, rfl⟩
  have hroll : mRollback st id targetV now =
      .ok (commit st1 id ("rollback_to_v" ++ toString targetV)
          (Config.UpdateMeta ⟨latest.meta, target.content⟩ now),
        Config.UpdateMeta ⟨latest.meta, target.content⟩ now) := by
    unfold mRollback
    rw [htarget]
    simp only [hlatest]
  rw [hroll]
  have hlast_mem : lastE ∈ h :: t := by
    exact List.mem_of_getLast?_eq_some hlast
  rcases hchain with ⟨hne, hcs, hnd, hone, hlinks⟩
  have hlcs_ne : lastE.cs ≠ "" := hcs lastE hlast_mem
  have hnewE_prev : (mkEntry id ("rollback_to_v" ++ toString targetV)
      (Config.UpdateMeta ⟨latest.meta, target.content⟩ now)).prevCS = lastE.cs := by
    show (Config.UpdateMeta ⟨latest.meta, target.content⟩ now).meta.prevCS = lastE.cs
    show latest.meta.cs = lastE.cs
    exact hlcs.symm
  have hfb2 : FindByID (commit st1 id ("rollback_to_v" ++ toString targetV)
        (Config.UpdateMeta ⟨latest.meta, target.content⟩ now)).journal id =
      (h :: t) ++ [mkEntry id ("rollback_to_v" ++ toString targetV)
        (Config.UpdateMeta ⟨latest.meta, target.content⟩ now)] := by
    show (st1.journal ++ [mkEntry id ("rollback_to_v" ++ toString targetV)
        (Config.UpdateMeta ⟨latest.meta, target.content⟩ now)]).filter
        (fun e => e.id == id) = _
    rw [List.filter_append]
    have hj' : st1.journal.filter (fun e => e.id == id) = h :: t := hjournal
    rw [hj']
    congr 1
    simp [mkEntry]
  have hchain2 : IsChain ((h :: t) ++ [mkEntry id ("rollback_to_v" ++ toString targetV)
      (Config.UpdateMeta ⟨latest.meta, target.content⟩ now)]) := by
    refine ⟨by simp, ?_, ?_, ?_, ?_⟩
    · intro e he
      rcases List.mem_append.mp he with he | he
      · exact hcs e he
      · have : e = mkEntry id ("rollback_to_v" ++ toString targetV)
            (Config.UpdateMeta ⟨latest.meta, target.content⟩ now) := by simpa using he
        rw [this]
        exact updateMeta_cs_ne_empty _ _
    · rw [List.map_append, List.nodup_append]
      refine ⟨hnd, by simp, ?_⟩
      intro x hx hy
      have hxcs : x = (Config.UpdateMeta ⟨latest.meta, target.content⟩ now).meta.cs := by
        simpa [mkEntry] using hy
      rw [hxcs] at hx
      exact hfresh hx
    · rw [List.filter_append]
      have h2 : ([mkEntry id ("rollback_to_v" ++ toString targetV)
          (Config.UpdateMeta ⟨latest.meta, target.content⟩ now)]).filter
          (fun e => e.prevCS == "") = [] := by
        rw [List.filter_eq_nil_iff]
        intro e he
        have he2 : e = mkEntry id ("rollback_to_v" ++ toString targetV)
            (Config.UpdateMeta ⟨latest.meta, target.content⟩ now) := by simpa using he
        rw [he2, hnewE_prev]
        simp [hlcs_ne]
      rw [h2, List.append_nil]
      exact hone
    · show ChainFrom h.cs (t ++ [mkEntry id ("rollback_to_v" ++ toString targetV)
        (Config.UpdateMeta ⟨latest.meta, target.content⟩ now)])
      rw [chainFrom_append]
      refine ⟨hlinks, ?_⟩
      rw [endCs_getLast t h lastE hlast]
      exact ⟨hnewE_prev, trivial⟩
  have hvc2 : ValidateChain ((h :: t) ++ [mkEntry id ("rollback_to_v" ++ toString targetV)
      (Config.UpdateMeta ⟨latest.meta, target.content⟩ now)]) = .ok () := by
    rcases validateChain_cons_parts hvalid with ⟨hE0, haux⟩
    show ValidateChain (h :: (t ++ [mkEntry id ("rollback_to_v" ++ toString targetV)
      (Config.UpdateMeta ⟨latest.meta, target.content⟩ now)])) = .ok ()
    show (do
      entryConfigOk 0 h
      validateChainAux 1 h (t ++ [mkEntry id ("rollback_to_v" ++ toString targetV)
        (Config.UpdateMeta ⟨latest.meta, target.content⟩ now)])) = .ok ()
    rw [hE0, except_bind_ok]
    refine validateChainAux_append t 1 h _ haux ?_ ?_
    · unfold entryConfigOk mkEntry
      simp [validate_updateMeta]
    · have hgd : (t.getLast?).getD h = lastE := by
        have := getLastD_cons t h h
        rw [← this]
        rw [hlast]
        rfl
      rw [hgd]
      unfold adjacentOk mkEntry
      have e1 : (Config.UpdateMeta ⟨latest.meta, target.content⟩ now).meta.prevCS =
          latest.meta.cs := rfl
      have e2 : (Config.UpdateMeta ⟨latest.meta, target.content⟩ now).meta.version =
          latest.meta.version + 1 := rfl
      have e3 : (Config.UpdateMeta ⟨latest.meta, target.content⟩ now).meta.time = now := rfl
      simp only [e1, e2, e3, hlcs, hlv]
      simp [not_lt.mpr hlt]
  refine ⟨rfl, rfl, rfl, ?_, ?_, ?_⟩
  · unfold mValidateChain
    rw [hfb2]
    have hres2 : Resequence ((h :: t) ++ [mkEntry id ("rollback_to_v" ++ toString targetV)
        (Config.UpdateMeta ⟨latest.meta, target.content⟩ now)]) = .ok _ :=
      resequence_perm_chain _ _ hchain2 (List.Perm.refl _)
    simp only [List.cons_append] at hres2 ⊢
    simp only [hres2]
    simp only [← List.cons_append] at hvc2 ⊢
    exact hvc2
  · intro v hv
    show snapFind (snapSave st1.snaps id (Config.UpdateMeta ⟨latest.meta, target.content⟩
      now)) id v = snapFind st1.snaps id v
    unfold snapFind snapSave
    have hver : (Config.UpdateMeta ⟨latest.meta, target.content⟩ now).meta.version =
        latest.meta.version + 1 := rfl
    rw [List.find?_cons_of_neg _ (by simp [hv.symm])]
    rw [find?_filter_of_imp]
    intro kv hkv
    have : kv.1.2 = v := by
      simp at hkv
      exact hkv.2
    simp [this, hv]
  · intro j v hj
    show snapFind (snapSave st1.snaps id (Config.UpdateMeta ⟨latest.meta, target.content⟩
      now)) j v = snapFind st1.snaps j v
    unfold snapFind snapSave
    rw [List.find?_cons_of_neg _ (by simp [Ne.symm hj])]
    rw [find?_filter_of_imp]
    intro kv hkv
    have : kv.1.1 = j := by
      simp at hkv
      exact hkv.1
    simp [this, hj]

/-- Concrete rollback target snapshot for the C6 witness: stored before
hashing, so its checksum is empty and snapLoad skips validation. -/
def wTarget6 : Config := ⟨⟨1, 0, "", "", ""⟩, Json.null⟩

/-- Concrete latest config for the C6 witness, agreeing with the last
chain entry wE2 in checksum and version. -/
def wLatest6 : Config := ⟨⟨2, 1, "a", "b", ""⟩, Json.null⟩

/-- Concrete manager state for the C6 witness: one stored snapshot, the
two-entry chain in the journal, and the latest config cached. -/
def wSt6 : MState := ⟨[(("w", 1), wTarget6)], [wE1, wE2], [("w", wLatest6)]⟩

/-- Witness for C6: rolling the concrete state back to version 1 at
time 5 succeeds, bumps the version to 3, restores the rolled-back
content, appends a rollback_to_v1 entry, and leaves a chain that still
validates with no unrelated snapshot touched. -/
theorem rollback_spec_witness :
    (match mRollback wSt6 "w" 1 5 with
     | .error _ => False
     | .ok (st2, newCfg) =>
         newCfg.meta.version = wLatest6.meta.version + 1 ∧
         newCfg.content = wTarget6.content ∧
         st2.journal = wSt6.journal ++
           [mkEntry "w" ("rollback_to_v" ++ toString (1 : Nat)) newCfg] ∧
         mValidateChain st2 "w" = .ok () ∧
         (∀ v, v ≠ newCfg.meta.version →
           snapFind st2.snaps "w" v = snapFind wSt6.snaps "w" v) ∧
         (∀ j v, j ≠ "w" → snapFind st2.snaps j v = snapFind wSt6.snaps j v)) :=
  rollback_spec wSt6 "w" 1 5 wTarget6 wLatest6 wSt6 [wE1, wE2] wE2
    rfl rfl rfl (by decide) rfl rfl rfl rfl (by decide)
    (by
      have hlen := updateMeta_cs_length ⟨wLatest6.meta, wTarget6.content⟩ 5
      intro hmem
      rcases List.mem_map.mp hmem with ⟨e, he, hcs⟩
      have he2 : e = wE1 ∨ e = wE2 := by simpa using he
      rcases he2 with rfl | rfl <;> rw [← hcs] at hlen <;> exact absurd hlen (by decide))

end Viracochan
